import Mathlib

/-!
Verification of the cache-optimized Bloom filter (Go package `bloomfilter`)
against its natural-language specification.

The Go source is shallowly embedded: machine `uint64` values are natural
numbers reduced `% 2^64` wherever Go arithmetic can wrap, byte slices are
`List ℕ` (each entry < 256 for genuine byte input), the cache-line array is a
`List` of cache lines, each a `List` of 8 words, and operations that can
panic in Go (integer division by zero, indexing an empty slice) return
`Option`/`Except` with `none`/`error` marking the panic.

Source files: `bloomfilter.go` (filter, hashes, bit accessors, bulk ops),
`simd_fallback.go` (scalar word-wise implementations of the vector strategy:
`VectorOr`, `VectorAnd`, `VectorClear`, `PopCount` via `popcount64`), and the
strategy dispatch file (`GetSIMDOperations`).  All architecture-specific
strategy variants present in the repository either delegate to the scalar
fallback (`AVX2Operations`, `AVX512Operations`) or implement the same
word-wise semantics in assembly (`NEONOperations`), so the scalar fallback is
embedded as the semantics of the vector strategy.
-/

namespace BloomFilterGo

/-- Modulus of Go `uint64` arithmetic. -/
def U64 : ℕ := 2 ^ 64

/-- FNV offset basis used by `hashOptimized1` (bloomfilter.go:302). -/
def fnvOffsetBasis : ℕ := 14695981039346656037

/-- FNV prime used by `hashOptimized1` (bloomfilter.go:303). -/
def fnvPrime : ℕ := 1099511628211

/-- Seed constant of `hashOptimized2` (bloomfilter.go:351). -/
def h2seed : ℕ := 0x9e3779b97f4a7c15

/-- Multiplier constant of `hashOptimized2` (bloomfilter.go:352). -/
def h2mult : ℕ := 0xc6a4a7935bd1e995

/-- Shift constant `r` of `hashOptimized2` (bloomfilter.go:353). -/
def h2r : ℕ := 47

/-- Little-endian 8-byte load `*(*uint64)(unsafe.Pointer(&data[i]))` from a
byte slice, as performed on the little-endian targets of the package.  Out of
range reads never occur in the source (every load is guarded by a length
check); `getD _ 0` keeps the definition total. -/
def load64 (data : List ℕ) (i : ℕ) : ℕ :=
  data.getD i 0 + data.getD (i + 1) 0 * 2 ^ 8 + data.getD (i + 2) 0 * 2 ^ 16 +
    data.getD (i + 3) 0 * 2 ^ 24 + data.getD (i + 4) 0 * 2 ^ 32 +
    data.getD (i + 5) 0 * 2 ^ 40 + data.getD (i + 6) 0 * 2 ^ 48 +
    data.getD (i + 7) 0 * 2 ^ 56

/-- One 8-byte FNV-style step of `hashOptimized1`: `hash ^= chunk; hash *= fnvPrime`. -/
def h1step (h c : ℕ) : ℕ := ((h ^^^ c) * fnvPrime) % U64

/-- Loop body system of `hashOptimized1` (bloomfilter.go:300-347).  The Go
function runs a 32-byte-chunk loop, then an 8-byte-chunk loop, then a
byte-at-a-time loop; the three loops are merged into one recursion on the
remaining suffix of the data (once fewer than 32 bytes remain the first guard
stays false, and likewise for the second), with a fuel argument bounded by the
data length so that the recursion is structural. -/
def h1run : ℕ → List ℕ → ℕ → ℕ
  | 0, _, h => h
  | fuel + 1, l, h =>
    if 32 ≤ l.length then
      h1run fuel (l.drop 32)
        (h1step (h1step (h1step (h1step h (load64 l 0)) (load64 l 8)) (load64 l 16)) (load64 l 24))
    else if 8 ≤ l.length then
      h1run fuel (l.drop 8) (h1step h (load64 l 0))
    else
      match l with
      | [] => h
      | b :: t => h1run fuel t (h1step h b)

/-- The first base hash `hashOptimized1` (bloomfilter.go:300-347). -/
def hashOptimized1 (data : List ℕ) : ℕ := h1run data.length data fnvOffsetBasis

/-- One murmur-style step of `hashOptimized2`:
`hash ^= chunk; hash *= mult; hash ^= hash >> r`. -/
def h2step (h c : ℕ) : ℕ :=
  let a := ((h ^^^ c) * h2mult) % U64
  a ^^^ (a >>> h2r)

/-- Loop body system of `hashOptimized2` (bloomfilter.go:349-403), merged into
one fueled recursion exactly as `h1run`. -/
def h2run : ℕ → List ℕ → ℕ → ℕ
  | 0, _, h => h
  | fuel + 1, l, h =>
    if 32 ≤ l.length then
      h2run fuel (l.drop 32)
        (h2step (h2step (h2step (h2step h (load64 l 0)) (load64 l 8)) (load64 l 16)) (load64 l 24))
    else if 8 ≤ l.length then
      h2run fuel (l.drop 8) (h2step h (load64 l 0))
    else
      match l with
      | [] => h
      | b :: t => h2run fuel t (h2step h b)

/-- The second base hash `hashOptimized2` (bloomfilter.go:349-403). -/
def hashOptimized2 (data : List ℕ) : ℕ := h2run data.length data h2seed

/-- Scalar population count of one 64-bit word, `popcount64`
(simd_fallback.go:126-132).  Go's wrapping `uint64` multiplication is the
explicit `% U64`; the three subtraction/addition/mask steps cannot wrap for
inputs below `2^64`. -/
def popcount64 (x : ℕ) : ℕ :=
  let x1 := x - ((x >>> 1) &&& 0x5555555555555555)
  let x2 := (x1 &&& 0x3333333333333333) + ((x1 >>> 2) &&& 0x3333333333333333)
  let x3 := (x2 + (x2 >>> 4)) &&& 0x0f0f0f0f0f0f0f0f
  ((x3 * 0x0101010101010101) % U64) >>> 56

/-- Number of set bits among the 64 low bits of a word: the mathematical value
that `popcount64` is supposed to compute. -/
def bitsum64 (x : ℕ) : ℕ :=
  ∑ i ∈ Finset.range 64, (if x.testBit i then 1 else 0)

/-- The filter record `CacheOptimizedBloomFilter` (bloomfilter.go:11-24).
`cacheLines` is the cache-line-aligned bit store (each line = 8 words of 64
bits); `positions` and `cacheLineIndices` are the pre-allocated scratch
buffers reused by every `Add`/`Contains` call.  The `simdOps` field is not
represented: every strategy in the repository has the word-wise scalar
semantics embedded below. -/
structure Filter where
  cacheLines : List (List ℕ)
  bitCount : ℕ
  hashCount : ℕ
  cacheLineCount : ℕ
  positions : List ℕ
  cacheLineIndices : List ℕ
deriving DecidableEq, Repr

/-- Position loop of `getHashPositionsOptimized` (bloomfilter.go:413-420):
for `i` in `[i, hashCount)` compute `hash := h1 + uint64(i)*h2` (wrapping) and
`bitPos := hash % bitCount`.  Fueled so that the recursion is structural; the
callers pass `fuel = hashCount - i`. -/
def posLoop (h1 h2 bc hc : ℕ) : ℕ → ℕ → List ℕ
  | _, 0 => []
  | i, fuel + 1 =>
    if i < hc then ((h1 + i * h2) % U64) % bc :: posLoop h1 h2 bc hc (i + 1) fuel
    else []

/-- Ordered sequence of the `hashCount` bit positions derived for one element. -/
def genPositions (h1 h2 bc hc : ℕ) : List ℕ := posLoop h1 h2 bc hc 0 hc

/-- The scratch-filling position generator `getHashPositionsOptimized`
(bloomfilter.go:406-427).  When `hashCount ≥ 1` and `bitCount = 0` the first
loop iteration evaluates `hash % bf.bitCount` with a zero divisor, a Go
runtime panic, modelled as `none`; the panic happens before any scratch write.
On success the call overwrites the `positions` scratch (exactly `hashCount`
entries, the scratch's full length for any constructed filter) and rebuilds
`cacheLineIndices` as the deduplicated owning-line indices (Go collects the
keys of a map, in unspecified order; the embedding uses first-occurrence
order, and no theorem below depends on that order). -/
def getHashPositionsOptimized (bf : Filter) (data : List ℕ) : Option Filter :=
  if 0 < bf.hashCount ∧ bf.bitCount = 0 then none
  else
    let ps := genPositions (hashOptimized1 data) (hashOptimized2 data) bf.bitCount bf.hashCount
    some { bf with positions := ps, cacheLineIndices := (ps.map (· / 512)).dedup }

/-- Update of one bit of the store: line `p / 512`, word `(p % 512) / 64` of
that line, bit `p % 64` of that word (`cacheLine.words[op.wordIdx] |= 1 <<
op.bitOffset`, bloomfilter.go:461). -/
def setBit1 (lines : List (List ℕ)) (p : ℕ) : List (List ℕ) :=
  lines.set (p / 512)
    ((lines.getD (p / 512) []).set (p % 512 / 64)
      (((lines.getD (p / 512) []).getD (p % 512 / 64) 0) ||| (1 <<< (p % 64))))

/-- Grouped bit-set `setBitCacheOptimized` (bloomfilter.go:442-465).  The Go
code first groups positions into a map keyed by owning cache line and then
sets the bits line by line, skipping any group whose line index is `≥
cacheLineCount`; since each update ORs a single bit into a single word, the
grouped traversal produces exactly the same store as this per-position fold
with the same guard. -/
def setBitCacheOptimized (count : ℕ) (lines : List (List ℕ)) (ps : List ℕ) : List (List ℕ) :=
  ps.foldl (fun ls p => if p / 512 < count then setBit1 ls p else ls) lines

/-- Test of one bit of the store. -/
def bitGet (lines : List (List ℕ)) (p : ℕ) : Bool :=
  ((lines.getD (p / 512) []).getD (p % 512 / 64) 0).testBit (p % 64)

/-- Grouped bit-test `getBitCacheOptimized` (bloomfilter.go:468-497): false as
soon as some required line index is out of range or some required bit is zero,
true otherwise.  The Go grouping and short-circuiting do not change the
resulting conjunction. -/
def getBitCacheOptimized (count : ℕ) (lines : List (List ℕ)) (ps : List ℕ) : Bool :=
  ps.all fun p => decide (p / 512 < count) && bitGet lines p

/-- `Add` (bloomfilter.go:86-90): generate positions into the scratch, then
set the bits.  `prefetchCacheLines` only reads memory and is omitted.  `none`
models the position generator's division-by-zero panic. -/
def addGo (bf : Filter) (data : List ℕ) : Option Filter :=
  (getHashPositionsOptimized bf data).map fun bf1 =>
    { bf1 with cacheLines := setBitCacheOptimized bf1.cacheLineCount bf1.cacheLines bf1.positions }

/-- `Contains` (bloomfilter.go:93-97).  Returns the updated filter (the call
overwrites the scratch buffers through `getHashPositionsOptimized`) together
with the membership answer. -/
def containsSt (bf : Filter) (data : List ℕ) : Option (Filter × Bool) :=
  (getHashPositionsOptimized bf data).map fun bf1 =>
    (bf1, getBitCacheOptimized bf1.cacheLineCount bf1.cacheLines bf1.positions)

/-- Membership answer of `Contains`. -/
def containsB (bf : Filter) (data : List ℕ) : Option Bool :=
  (containsSt bf data).map (·.2)

/-- Word-wise OR of the two stores: `FallbackOperations.VectorOr`
(simd_fallback.go:67-85) applied to the full `cacheLineCount * 64`-byte
region, whose length is a multiple of 8 so the trailing-byte branch is dead. -/
def vecOr (x y : List (List ℕ)) : List (List ℕ) :=
  List.zipWith (fun lx ly => List.zipWith (· ||| ·) lx ly) x y

/-- Word-wise AND of the two stores: `FallbackOperations.VectorAnd`
(simd_fallback.go:87-105). -/
def vecAnd (x y : List (List ℕ)) : List (List ℕ) :=
  List.zipWith (fun lx ly => List.zipWith (· &&& ·) lx ly) x y

/-- `Union` (bloomfilter.go:143-163).  The size check precedes any mutation;
on mismatch the error is returned with both filters untouched (the embedding
returns no state at all on error).  The second component of the success value
is the `other` filter, which `VectorOr` only reads. -/
def unionGo (bf other : Filter) : Except String (Filter × Filter) :=
  if bf.cacheLineCount ≠ other.cacheLineCount then
    Except.error "bloom filters must have same size for union"
  else if bf.cacheLineCount = 0 then Except.ok (bf, other)
  else Except.ok ({ bf with cacheLines := vecOr bf.cacheLines other.cacheLines }, other)

/-- `Intersection` (bloomfilter.go:166-186). -/
def intersectionGo (bf other : Filter) : Except String (Filter × Filter) :=
  if bf.cacheLineCount ≠ other.cacheLineCount then
    Except.error "bloom filters must have same size for intersection"
  else if bf.cacheLineCount = 0 then Except.ok (bf, other)
  else Except.ok ({ bf with cacheLines := vecAnd bf.cacheLines other.cacheLines }, other)

/-- `Clear` (bloomfilter.go:130-140): zero-fill of the whole store via
`FallbackOperations.VectorClear` (simd_fallback.go:107-123), which writes 0 to
every word of the `cacheLineCount * 64`-byte region. -/
def clearGo (bf : Filter) : Filter :=
  if bf.cacheLineCount = 0 then bf
  else { bf with cacheLines := bf.cacheLines.map fun l => l.map fun _ => 0 }

/-- `PopCount` (bloomfilter.go:189-201): 0 for an empty store, otherwise the
sum of `popcount64` over all words of the flat region
(`FallbackOperations.PopCount`, simd_fallback.go:45-65). -/
def popCountGo (bf : Filter) : ℕ :=
  if bf.cacheLineCount = 0 then 0
  else (bf.cacheLines.flatten.map popcount64).sum

/-- Configuration triple of a filter: the fields no operation may change. -/
def config (bf : Filter) : ℕ × ℕ × ℕ := (bf.bitCount, bf.hashCount, bf.cacheLineCount)

/-- Integer-valued part of `GetCacheStats` (bloomfilter.go:211-231): bit
count, hash count, bits set, cache line count, memory usage in bytes.  The
floating-point fields (`LoadFactor`, `EstimatedFPP`) and the capability flags
are not represented.  The Go function reads but never writes the filter. -/
def statsGo (bf : Filter) : ℕ × ℕ × ℕ × ℕ × ℕ :=
  (bf.bitCount, bf.hashCount, popCountGo bf, bf.cacheLineCount, bf.cacheLineCount * 64)

/-- Shape invariant of the bit store: exactly `cacheLineCount` lines of 8
words, as allocated by the constructor. -/
def wfShape (bf : Filter) : Prop :=
  bf.cacheLines.length = bf.cacheLineCount ∧ ∀ l ∈ bf.cacheLines, l.length = 8

/-- Word-range invariant: every stored word is a `uint64` value. -/
def wfWords (bf : Filter) : Prop :=
  ∀ l ∈ bf.cacheLines, ∀ w ∈ l, w < U64

/-- Full well-formedness: shape, word range, the cache-line alignment
invariant `bitCount = cacheLineCount * 512`, and `hashCount ≥ 1`.  Every
successfully constructed filter satisfies it. -/
def wf (bf : Filter) : Prop :=
  wfShape bf ∧ wfWords bf ∧ bf.bitCount = bf.cacheLineCount * 512 ∧ 1 ≤ bf.hashCount

instance : DecidablePred wfShape := fun bf => by
  unfold wfShape
  infer_instance

instance : DecidablePred wfWords := fun bf => by
  unfold wfWords
  infer_instance

instance : DecidablePred wf := fun bf => by
  unfold wf wfShape wfWords
  infer_instance

instance {e a : Type} [DecidableEq e] [DecidableEq a] : DecidableEq (Except e a)
  | Except.error s, Except.error t =>
    if h : s = t then isTrue (by rw [h]) else isFalse fun hc => h (Except.error.inj hc)
  | Except.error _, Except.ok _ => isFalse fun hc => Except.noConfusion hc
  | Except.ok _, Except.error _ => isFalse fun hc => Except.noConfusion hc
  | Except.ok s, Except.ok t =>
    if h : s = t then isTrue (by rw [h]) else isFalse fun hc => h (Except.ok.inj hc)

section Sizing

/-- Exact rational value of the Go constant `math.Ln2`
(`0x3FE62E42FEFA39EF` = 6243314768165359 × 2⁻⁵³). -/
def ln2Rat : ℚ := 6243314768165359 / 2 ^ 53

/-- Go conversion `uint64(f)` / `uint32(f)` of a nonnegative float: truncation
toward zero.  (Negative values never reach a conversion in this code path:
`-n·ln p` is positive for `p ∈ (0,1)`.) -/
def goTrunc (q : ℚ) : ℕ := (⌊q⌋).toNat

/-- Result of the sizing computation of `NewCacheOptimizedBloomFilter`
(bloomfilter.go:45-57). -/
structure GoSizing where
  bitCountIdeal : ℕ
  hashCount : ℕ
  cacheLineCount : ℕ
  bitCount : ℕ
deriving DecidableEq, Repr

/-- Sizing computation of `NewCacheOptimizedBloomFilter` (bloomfilter.go:45-57),
with the float64 value of `-float64(expectedElements) * math.Log(fpr) / (ln2*ln2)`
abstracted as the exact rational `idealBits`, and the float64 product
`float64(bitCount) * ln2 / float64(expectedElements)` computed in exact
rational arithmetic with the exact value of the `math.Ln2` constant.  (Each
float64 operation is exact to about 16 decimal digits; every concrete input
used below sits far from the integer boundaries that truncation and rounding
compare against, so exact rational arithmetic yields the same integers.)
Note `hashCount` is computed from the pre-alignment bit count, and the bit
count is then rounded up to a whole number of 512-bit cache lines. -/
def computeSizing (idealBits : ℚ) (expectedElements : ℕ) : GoSizing :=
  let bc0 := goTrunc idealBits
  let hc0 := goTrunc ((bc0 : ℚ) * ln2Rat / (expectedElements : ℚ))
  let hc := if hc0 < 1 then 1 else hc0
  let clc := (bc0 + 512 - 1) / 512
  { bitCountIdeal := bc0, hashCount := hc, cacheLineCount := clc, bitCount := clc * 512 }

/-- Constructor `NewCacheOptimizedBloomFilter` (bloomfilter.go:45-83).  When
the sizing yields `cacheLineCount = 0` (possible: `expectedElements = 1` with
a false-positive rate close to 1 truncates the ideal bit count to 0), the
alignment check `uintptr(unsafe.Pointer(&cacheLines[0]))` indexes the empty
backing slice and panics — modelled as `none`.  Otherwise the store is
`cacheLineCount` all-zero lines and both scratch buffers have length
`hashCount`. -/
def newFilterGo (idealBits : ℚ) (expectedElements : ℕ) : Option Filter :=
  let s := computeSizing idealBits expectedElements
  if s.cacheLineCount = 0 then none
  else
    some { cacheLines := List.replicate s.cacheLineCount (List.replicate 8 0),
           bitCount := s.bitCount, hashCount := s.hashCount,
           cacheLineCount := s.cacheLineCount,
           positions := List.replicate s.hashCount 0,
           cacheLineIndices := List.replicate s.hashCount 0 }

/-- Modelled from the spec: the ideal bit count
`ceil(-expectedElements × ln(falsePositiveRate) / ln(2)²)` of §4.3, as a
function of the same exact rational `idealBits` abstraction. -/
def specIdealBitCount (idealBits : ℚ) : ℕ := (⌈idealBits⌉).toNat

/-- Modelled from the spec: `hashCount = round(bitCount/expectedElements × ln2)`,
floor of 1 (§4.3). -/
def specHashCount (bits expectedElements : ℕ) : ℕ :=
  max 1 (round ((bits : ℚ) * ln2Rat / (expectedElements : ℚ))).toNat

end Sizing

/-! ### Correctness of the SWAR popcount (simd_fallback.go:126-132) -/

/-- Width-`w` field number `k` of a natural number (bits `w*k .. w*k+w-1`). -/
def dig (w k x : ℕ) : ℕ := x / 2 ^ (w * k) % 2 ^ w

theorem dig_lt (w k x : ℕ) : dig w k x < 2 ^ w :=
  Nat.mod_lt _ (Nat.pos_pow_of_pos w (by norm_num))

theorem dig_succ (w k x : ℕ) : dig w (k + 1) x = dig w k (x / 2 ^ w) := by
  unfold dig
  rw [Nat.div_div_eq_div_mul, ← pow_add]
  ring_nf

theorem dig_zero_eq (w x : ℕ) : dig w 0 x = x % 2 ^ w := by
  unfold dig
  simp

/-- Every natural below `2^(w*n)` is the weighted sum of its `n` width-`w` fields. -/
theorem sum_dig (w : ℕ) : ∀ n x, x < 2 ^ (w * n) →
    (∑ k ∈ Finset.range n, dig w k x * 2 ^ (w * k)) = x := by
  intro n
  induction n with
  | zero => intro x hx; simp at hx ⊢; omega
  | succ m ih =>
    intro x hx
    rw [Finset.sum_range_succ']
    have h1 : ∀ k, dig w (k + 1) x * 2 ^ (w * (k + 1)) = (dig w k (x / 2 ^ w) * 2 ^ (w * k)) * 2 ^ w := by
      intro k
      rw [dig_succ, mul_add_one, pow_add]
      ring
    rw [Finset.sum_congr rfl (fun k _ => h1 k), ← Finset.sum_mul]
    have hdiv : x / 2 ^ w < 2 ^ (w * m) := by
      rw [Nat.div_lt_iff_lt_mul (Nat.pos_pow_of_pos w (by norm_num)), ← pow_add]
      have : w * m + w = w * (m + 1) := by ring
      rwa [this]
    rw [ih (x / 2 ^ w) hdiv, dig_zero_eq]
    have := Nat.mod_add_div x (2 ^ w)
    simp [mul_comm] at this ⊢
    omega

/-- Peel the lowest field off a weighted field sum. -/
theorem sum_fields_succ (w m : ℕ) (f : ℕ → ℕ) :
    (∑ j ∈ Finset.range (m + 1), f j * 2 ^ (w * j)) =
      f 0 + 2 ^ w * ∑ j ∈ Finset.range m, f (j + 1) * 2 ^ (w * j) := by
  rw [Finset.sum_range_succ']
  have h1 : ∀ j, f (j + 1) * 2 ^ (w * (j + 1)) = 2 ^ w * (f (j + 1) * 2 ^ (w * j)) := by
    intro j
    rw [mul_add_one, pow_add]; ring
  rw [Finset.sum_congr rfl (fun j _ => h1 j), ← Finset.mul_sum]
  simp [add_comm]

/-- A weighted sum of `n` fields each below `2^w` is below `2^(w*n)`. -/
theorem sum_fields_lt (w : ℕ) : ∀ (n : ℕ) (f : ℕ → ℕ), (∀ j < n, f j < 2 ^ w) →
    (∑ j ∈ Finset.range n, f j * 2 ^ (w * j)) < 2 ^ (w * n) := by
  intro n
  induction n with
  | zero => intro f _; simp
  | succ m ih =>
    intro f hf
    rw [sum_fields_succ]
    have hT : (∑ j ∈ Finset.range m, f (j + 1) * 2 ^ (w * j)) < 2 ^ (w * m) := by
      have := ih (fun j => f (j + 1)) (fun j hj => hf (j + 1) (by omega))
      simpa using this
    have hf0 := hf 0 (by omega)
    have hpow : (2:ℕ) ^ (w * (m + 1)) = 2 ^ w * 2 ^ (w * m) := by
      rw [mul_add_one, pow_add]; ring
    have hmul : 2 ^ w * (∑ j ∈ Finset.range m, f (j + 1) * 2 ^ (w * j)) + 2 ^ w
        ≤ 2 ^ w * 2 ^ (w * m) := by
      calc 2 ^ w * (∑ j ∈ Finset.range m, f (j + 1) * 2 ^ (w * j)) + 2 ^ w
          = 2 ^ w * ((∑ j ∈ Finset.range m, f (j + 1) * 2 ^ (w * j)) + 1) := by ring
        _ ≤ 2 ^ w * 2 ^ (w * m) := Nat.mul_le_mul_left _ hT
    rw [hpow]
    omega

/-- Field extraction from a weighted field sum. -/
theorem dig_sum (w : ℕ) : ∀ (k n : ℕ) (f : ℕ → ℕ), (∀ j < n, f j < 2 ^ w) → k < n →
    dig w k (∑ j ∈ Finset.range n, f j * 2 ^ (w * j)) = f k := by
  intro k
  induction k with
  | zero =>
    intro n f hf hk
    obtain ⟨m, rfl⟩ : ∃ m, n = m + 1 := ⟨n - 1, by omega⟩
    rw [sum_fields_succ, dig_zero_eq, Nat.add_mul_mod_self_left,
      Nat.mod_eq_of_lt (hf 0 (by omega))]
  | succ j ih =>
    intro n f hf hk
    obtain ⟨m, rfl⟩ : ∃ m, n = m + 1 := ⟨n - 1, by omega⟩
    rw [sum_fields_succ, dig_succ]
    have hq : (f 0 + 2 ^ w * ∑ i ∈ Finset.range m, f (i + 1) * 2 ^ (w * i)) / 2 ^ w
        = ∑ i ∈ Finset.range m, f (i + 1) * 2 ^ (w * i) := by
      rw [mul_comm, Nat.add_mul_div_right _ _ (Nat.pos_pow_of_pos w (by norm_num)),
        Nat.div_eq_of_lt (hf 0 (by omega))]
      omega
    rw [hq, ih m (fun i => f (i + 1)) (fun i hi => hf (i + 1) (by omega)) (by omega)]



/-- Bit `w*k + s` of `x` is bit `s` of field `k`. -/
theorem testBit_dig (w k s x : ℕ) (hs : s < w) :
    x.testBit (w * k + s) = decide (dig w k x / 2 ^ s % 2 = 1) := by
  unfold dig
  rw [Nat.testBit_to_div_mod]
  have h1 : x / 2 ^ (w * k + s) = x / 2 ^ (w * k) / 2 ^ s := by
    rw [pow_add, Nat.div_div_eq_div_mul]
  rw [h1]
  set q := x / 2 ^ (w * k) with hq
  have h2 : (2:ℕ) ^ w = 2 ^ s * 2 ^ (w - s) := by rw [← pow_add]; congr 1; omega
  have h3 : q % 2 ^ w / 2 ^ s = q / 2 ^ s % 2 ^ (w - s) := by
    rw [h2, Nat.mod_mul, Nat.add_mul_div_left _ _ (Nat.pos_pow_of_pos s (by norm_num)),
      Nat.div_eq_of_lt (Nat.mod_lt _ (Nat.pos_pow_of_pos s (by norm_num)))]
    omega
  rw [h3]
  have h4 : q / 2 ^ s % 2 ^ (w - s) % 2 = q / 2 ^ s % 2 := by
    apply Nat.mod_mod_of_dvd
    exact dvd_pow_self 2 (by omega)
  rw [h4]

/-- A field is the weighted sum of its bits. -/
theorem dig_eq_bits_sum (w k x : ℕ) :
    dig w k x = ∑ s ∈ Finset.range w, (if x.testBit (w * k + s) then 1 else 0) * 2 ^ s := by
  have hlt : dig w k x < 2 ^ (1 * w) := by rw [one_mul]; exact dig_lt w k x
  have h0 := sum_dig 1 w (dig w k x) hlt
  have h1 : ∀ s, s < w → dig 1 s (dig w k x) = (if x.testBit (w * k + s) then 1 else 0) := by
    intro s hs
    rw [testBit_dig w k s x hs]
    unfold dig
    have : (2:ℕ) ^ 1 = 2 := by norm_num
    rw [one_mul, this]
    rcases Nat.mod_two_eq_zero_or_one (dig w k x / 2 ^ s) with h | h
    · unfold dig at h
      simp [h]
    · unfold dig at h
      simp [h]
  calc dig w k x = ∑ s ∈ Finset.range w, dig 1 s (dig w k x) * 2 ^ (1 * s) := h0.symm
    _ = ∑ s ∈ Finset.range w, (if x.testBit (w * k + s) then 1 else 0) * 2 ^ s := by
        apply Finset.sum_congr rfl
        intro s hs
        rw [h1 s (Finset.mem_range.mp hs), one_mul]



/-- Reconstruction of a value from known fields. -/
theorem eq_sum_of_digits (w n y : ℕ) (f : ℕ → ℕ) (hy : y < 2 ^ (w * n))
    (hd : ∀ k, k < n → dig w k y = f k) :
    y = ∑ k ∈ Finset.range n, f k * 2 ^ (w * k) := by
  rw [← sum_dig w n y hy]
  exact Finset.sum_congr rfl fun k hk => by rw [hd k (Finset.mem_range.mp hk)]

/-- Pointwise subtraction of weighted field sums (no borrows when the
subtrahend's fields are dominated). -/
theorem sum_sub_pointwise (n : ℕ) (f g W : ℕ → ℕ) (h : ∀ j < n, g j ≤ f j) :
    (∑ j ∈ Finset.range n, f j * W j) - (∑ j ∈ Finset.range n, g j * W j)
      = ∑ j ∈ Finset.range n, (f j - g j) * W j := by
  induction n with
  | zero => simp
  | succ m ih =>
    rw [Finset.sum_range_succ, Finset.sum_range_succ, Finset.sum_range_succ]
    have hs : (∑ j ∈ Finset.range m, g j * W j) ≤ ∑ j ∈ Finset.range m, f j * W j :=
      Finset.sum_le_sum fun j hj => Nat.mul_le_mul_right _ (h j (by
        have := Finset.mem_range.mp hj; omega))
    have hm : g m * W m ≤ f m * W m := Nat.mul_le_mul_right _ (h m (by omega))
    have hsub : (f m - g m) * W m = f m * W m - g m * W m := Nat.sub_mul _ _ _
    have ihh := ih fun j hj => h j (by omega)
    omega

/-- Regrouping a field sum into double-width fields, two at a time. -/
theorem sum_pair (w : ℕ) : ∀ (n : ℕ) (F : ℕ → ℕ),
    (∑ k ∈ Finset.range (2 * n), F k * 2 ^ (w * k)) =
      ∑ j ∈ Finset.range n, (F (2 * j) + 2 ^ w * F (2 * j + 1)) * 2 ^ (w * (2 * j)) := by
  intro n
  induction n with
  | zero => simp
  | succ m ih =>
    intro F
    have h2 : 2 * (m + 1) = (2 * m) + 1 + 1 := by ring
    rw [h2, Finset.sum_range_succ, Finset.sum_range_succ, Finset.sum_range_succ, ih F]
    have h3 : F (2 * m + 1) * 2 ^ (w * (2 * m + 1)) =
        2 ^ w * F (2 * m + 1) * 2 ^ (w * (2 * m)) := by
      rw [mul_add_one w, pow_add]; ring
    rw [h3]
    ring

/-- Shifting a field sum right by one field width drops the lowest field. -/
theorem sum_shift_field (w m : ℕ) (f : ℕ → ℕ) (hf0 : f 0 < 2 ^ w) :
    (∑ j ∈ Finset.range (m + 1), f j * 2 ^ (w * j)) >>> w =
      ∑ j ∈ Finset.range m, f (j + 1) * 2 ^ (w * j) := by
  rw [sum_fields_succ, Nat.shiftRight_eq_div_pow, mul_comm,
    Nat.add_mul_div_right _ _ (Nat.pos_pow_of_pos w (by norm_num)),
    Nat.div_eq_of_lt hf0]
  omega

/-- Bits of the even-position mask `0x5555555555555555`. -/
theorem testBit_mask1 (i : ℕ) :
    (0x5555555555555555 : ℕ).testBit i = (decide (i % 2 = 0) && decide (i < 64)) := by
  by_cases h : i < 64
  · have hb : ∀ j, j < 64 → ((0x5555555555555555 : ℕ).testBit j = decide (j % 2 = 0)) := by decide
    rw [hb i h]
    simp [h]
  · have h64 : (2:ℕ) ^ 64 ≤ 2 ^ i := Nat.pow_le_pow_right (by norm_num) (by omega)
    have hlt : (0x5555555555555555 : ℕ) < 2 ^ i :=
      lt_of_lt_of_le (by norm_num : (0x5555555555555555 : ℕ) < 2 ^ 64) h64
    simp [Nat.testBit_lt_two_pow hlt, h]

/-- Bits of the two-bit-pair mask `0x3333333333333333`. -/
theorem testBit_mask2 (i : ℕ) :
    (0x3333333333333333 : ℕ).testBit i = (decide (i % 4 < 2) && decide (i < 64)) := by
  by_cases h : i < 64
  · have hb : ∀ j, j < 64 → ((0x3333333333333333 : ℕ).testBit j = decide (j % 4 < 2)) := by decide
    rw [hb i h]
    simp [h]
  · have h64 : (2:ℕ) ^ 64 ≤ 2 ^ i := Nat.pow_le_pow_right (by norm_num) (by omega)
    have hlt : (0x3333333333333333 : ℕ) < 2 ^ i :=
      lt_of_lt_of_le (by norm_num : (0x3333333333333333 : ℕ) < 2 ^ 64) h64
    simp [Nat.testBit_lt_two_pow hlt, h]

/-- Bits of the nibble mask `0x0f0f0f0f0f0f0f0f`. -/
theorem testBit_mask3 (i : ℕ) :
    (0x0f0f0f0f0f0f0f0f : ℕ).testBit i = (decide (i % 8 < 4) && decide (i < 64)) := by
  by_cases h : i < 64
  · have hb : ∀ j, j < 64 → ((0x0f0f0f0f0f0f0f0f : ℕ).testBit j = decide (j % 8 < 4)) := by decide
    rw [hb i h]
    simp [h]
  · have h64 : (2:ℕ) ^ 64 ≤ 2 ^ i := Nat.pow_le_pow_right (by norm_num) (by omega)
    have hlt : (0x0f0f0f0f0f0f0f0f : ℕ) < 2 ^ i :=
      lt_of_lt_of_le (by norm_num : (0x0f0f0f0f0f0f0f0f : ℕ) < 2 ^ 64) h64
    simp [Nat.testBit_lt_two_pow hlt, h]



/-- Shifting by one field width shifts field indices. -/
theorem dig_shift (w k x : ℕ) : dig w k (x >>> w) = dig w (k + 1) x := by
  unfold dig
  rw [Nat.shiftRight_eq_div_pow, Nat.div_div_eq_div_mul, ← pow_add]
  congr 2
  ring

/-- Field-wise effect of masking with `0x3333333333333333`: even-numbered
2-bit fields survive, odd-numbered ones are zeroed. -/
theorem dig2_and_mask2 (y k : ℕ) (hk : k < 32) :
    dig 2 k (y &&& 0x3333333333333333) = if k % 2 = 0 then dig 2 k y else 0 := by
  rcases Nat.mod_two_eq_zero_or_one k with hk2 | hk2
  · have hb : ∀ s, s < 2 → (y &&& 0x3333333333333333).testBit (2 * k + s) = y.testBit (2 * k + s) := by
      intro s hs
      rw [Nat.testBit_and, testBit_mask2]
      have h1 : (2 * k + s) % 4 < 2 := by omega
      have h2 : 2 * k + s < 64 := by omega
      simp [h1, h2]
    rw [dig_eq_bits_sum 2 k (y &&& 0x3333333333333333), dig_eq_bits_sum 2 k y, if_pos hk2]
    exact Finset.sum_congr rfl fun s hs => by rw [hb s (Finset.mem_range.mp hs)]
  · have hb : ∀ s, s < 2 → (y &&& 0x3333333333333333).testBit (2 * k + s) = false := by
      intro s hs
      rw [Nat.testBit_and, testBit_mask2]
      have h1 : ¬ ((2 * k + s) % 4 < 2) := by omega
      simp [h1]
    rw [dig_eq_bits_sum 2 k (y &&& 0x3333333333333333), if_neg (by omega)]
    exact Finset.sum_eq_zero fun s hs => by rw [hb s (Finset.mem_range.mp hs)]; simp

/-- Field-wise effect of masking with `0x0f0f0f0f0f0f0f0f`: even-numbered
nibbles survive, odd-numbered ones are zeroed. -/
theorem dig4_and_mask3 (y j : ℕ) (hj : j < 16) :
    dig 4 j (y &&& 0x0f0f0f0f0f0f0f0f) = if j % 2 = 0 then dig 4 j y else 0 := by
  rcases Nat.mod_two_eq_zero_or_one j with hj2 | hj2
  · have hb : ∀ s, s < 4 → (y &&& 0x0f0f0f0f0f0f0f0f).testBit (4 * j + s) = y.testBit (4 * j + s) := by
      intro s hs
      rw [Nat.testBit_and, testBit_mask3]
      have h1 : (4 * j + s) % 8 < 4 := by omega
      have h2 : 4 * j + s < 64 := by omega
      simp [h1, h2]
    rw [dig_eq_bits_sum 4 j (y &&& 0x0f0f0f0f0f0f0f0f), dig_eq_bits_sum 4 j y, if_pos hj2]
    exact Finset.sum_congr rfl fun s hs => by rw [hb s (Finset.mem_range.mp hs)]
  · have hb : ∀ s, s < 4 → (y &&& 0x0f0f0f0f0f0f0f0f).testBit (4 * j + s) = false := by
      intro s hs
      rw [Nat.testBit_and, testBit_mask3]
      have h1 : ¬ ((4 * j + s) % 8 < 4) := by omega
      simp [h1]
    rw [dig_eq_bits_sum 4 j (y &&& 0x0f0f0f0f0f0f0f0f), if_neg (by omega)]
    exact Finset.sum_eq_zero fun s hs => by rw [hb s (Finset.mem_range.mp hs)]; simp

/-- The 2-bit field contents after the first SWAR step. -/
def swarD (x k : ℕ) : ℕ := dig 2 k x - dig 2 k x / 2

/-- The 4-bit field contents after the second SWAR step. -/
def swarE (x j : ℕ) : ℕ := swarD x (2 * j) + swarD x (2 * j + 1)

/-- The byte field contents after the third SWAR step. -/
def swarF (x t : ℕ) : ℕ := swarE x (2 * t) + swarE x (2 * t + 1)

theorem swarD_le (x k : ℕ) : swarD x k ≤ 2 := by
  have := dig_lt 2 k x
  unfold swarD
  omega

theorem swarE_le (x j : ℕ) : swarE x j ≤ 4 := by
  have h1 := swarD_le x (2 * j)
  have h2 := swarD_le x (2 * j + 1)
  unfold swarE
  omega

theorem swarF_le (x t : ℕ) : swarF x t ≤ 8 := by
  have h1 := swarE_le x (2 * t)
  have h2 := swarE_le x (2 * t + 1)
  unfold swarF
  omega



theorem sum_range_pair (F : ℕ → ℕ) : ∀ n : ℕ,
    (∑ k ∈ Finset.range (2 * n), F k) = ∑ j ∈ Finset.range n, (F (2 * j) + F (2 * j + 1)) := by
  intro n
  induction n with
  | zero => simp
  | succ m ih =>
    have h2 : 2 * (m + 1) = 2 * m + 1 + 1 := by ring
    rw [h2, Finset.sum_range_succ, Finset.sum_range_succ, Finset.sum_range_succ, ih]
    ring

/-- First SWAR step of `popcount64`: each 2-bit field now holds the number of
set bits it originally contained. -/
theorem swar1_eq (x : ℕ) (hx : x < 2 ^ 64) :
    x - ((x >>> 1) &&& 0x5555555555555555) =
      ∑ k ∈ Finset.range 32, swarD x k * 2 ^ (2 * k) := by
  have hBd : ∀ k, k < 32 → dig 2 k ((x >>> 1) &&& 0x5555555555555555) = dig 2 k x / 2 := by
    intro k hk
    have hb0 : ((x >>> 1) &&& 0x5555555555555555).testBit (2 * k) = x.testBit (2 * k + 1) := by
      rw [Nat.testBit_and, Nat.testBit_shiftRight, testBit_mask1]
      have h1 : (2 * k) % 2 = 0 := by omega
      have h2 : 2 * k < 64 := by omega
      have h3 : 1 + 2 * k = 2 * k + 1 := by omega
      simp [h1, h2, h3]
    have hb1 : ((x >>> 1) &&& 0x5555555555555555).testBit (2 * k + 1) = false := by
      rw [Nat.testBit_and, testBit_mask1]
      have h1 : ¬ ((2 * k + 1) % 2 = 0) := by omega
      simp [h1]
    have hx2 := dig_eq_bits_sum 2 k x
    have hB2 := dig_eq_bits_sum 2 k ((x >>> 1) &&& 0x5555555555555555)
    rw [Finset.sum_range_succ, Finset.sum_range_succ, Finset.sum_range_zero] at hx2 hB2
    simp only [add_zero, zero_add, pow_zero, pow_one, mul_one] at hx2 hB2
    rw [hb0, hb1] at hB2
    rw [hB2, hx2]
    rcases h0 : x.testBit (2 * k) <;> rcases h1 : x.testBit (2 * k + 1) <;> simp [h0, h1]
  have he : (2:ℕ) ^ (2 * 32) = 2 ^ 64 := by norm_num
  have hBlt : ((x >>> 1) &&& 0x5555555555555555) < 2 ^ (2 * 32) := by
    have hm : ((x >>> 1) &&& 0x5555555555555555) ≤ 0x5555555555555555 := Nat.and_le_right
    rw [he]
    calc ((x >>> 1) &&& 0x5555555555555555) ≤ 0x5555555555555555 := hm
      _ < 2 ^ 64 := by norm_num
  have hBsum := eq_sum_of_digits 2 32 ((x >>> 1) &&& 0x5555555555555555)
    (fun k => dig 2 k x / 2) hBlt hBd
  have hxsum := sum_dig 2 32 x (by rw [he]; exact hx)
  have key := sum_sub_pointwise 32 (fun k => dig 2 k x) (fun k => dig 2 k x / 2)
    (fun k => 2 ^ (2 * k)) (fun j _ => Nat.div_le_self _ _)
  simp only at key
  rw [hxsum] at key
  rw [← hBsum] at key
  rw [key]
  exact Finset.sum_congr rfl fun k _ => by rw [swarD]


/-- Second SWAR step: each 4-bit field holds the bit count of its span. -/
theorem swar2_eq (x1 : ℕ) (d : ℕ → ℕ) (hd : ∀ k, k < 32 → d k ≤ 2)
    (hx1 : x1 = ∑ k ∈ Finset.range 32, d k * 2 ^ (2 * k)) :
    (x1 &&& 0x3333333333333333) + ((x1 >>> 2) &&& 0x3333333333333333) =
      ∑ j ∈ Finset.range 16, (d (2 * j) + d (2 * j + 1)) * 2 ^ (4 * j) := by
  have hdlt : ∀ k, k < 32 → d k < 2 ^ 2 := fun k hk => by have := hd k hk; omega
  have hdig : ∀ k, k < 32 → dig 2 k x1 = d k := by
    intro k hk
    rw [hx1]
    exact dig_sum 2 k 32 d hdlt hk
  have hm2 : (0x3333333333333333 : ℕ) < 2 ^ (2 * 32) := by norm_num
  have ha : ∀ k, k < 32 → dig 2 k (x1 &&& 0x3333333333333333)
      = (if k % 2 = 0 then d k else 0) := by
    intro k hk
    rw [dig2_and_mask2 x1 k hk]
    split_ifs
    · exact hdig k hk
    · rfl
  have halt : (x1 &&& 0x3333333333333333) < 2 ^ (2 * 32) :=
    lt_of_le_of_lt Nat.and_le_right hm2
  have hasum := eq_sum_of_digits 2 32 (x1 &&& 0x3333333333333333)
    (fun k => if k % 2 = 0 then d k else 0) halt ha
  have hb : ∀ k, k < 32 → dig 2 k ((x1 >>> 2) &&& 0x3333333333333333)
      = (if k % 2 = 0 then d (k + 1) else 0) := by
    intro k hk
    rw [dig2_and_mask2 _ k hk, dig_shift 2 k x1]
    split_ifs with hpar
    · exact hdig (k + 1) (by omega)
    · rfl
  have hblt : ((x1 >>> 2) &&& 0x3333333333333333) < 2 ^ (2 * 32) :=
    lt_of_le_of_lt Nat.and_le_right hm2
  have hbsum := eq_sum_of_digits 2 32 ((x1 >>> 2) &&& 0x3333333333333333)
    (fun k => if k % 2 = 0 then d (k + 1) else 0) hblt hb
  rw [hasum, hbsum, ← Finset.sum_add_distrib]
  have hcomb : ∀ k, (if k % 2 = 0 then d k else 0) * 2 ^ (2 * k)
      + (if k % 2 = 0 then d (k + 1) else 0) * 2 ^ (2 * k)
      = (if k % 2 = 0 then d k + d (k + 1) else 0) * 2 ^ (2 * k) := by
    intro k
    split_ifs <;> ring
  rw [Finset.sum_congr rfl fun k _ => hcomb k]
  have hp := sum_pair 2 16 (fun k => if k % 2 = 0 then d k + d (k + 1) else 0)
  simp only at hp
  have h32 : 2 * 16 = 32 := by norm_num
  rw [h32] at hp
  rw [hp]
  apply Finset.sum_congr rfl
  intro j _
  have he1 : (2 * j) % 2 = 0 := by omega
  have he2 : ¬ ((2 * j + 1) % 2 = 0) := by omega
  have he3 : 2 * (2 * j) = 4 * j := by ring
  rw [if_pos he1, if_neg he2, he3]
  ring

/-- Third SWAR step: each byte holds the bit count of its span. -/
theorem swar3_eq (x2 : ℕ) (e : ℕ → ℕ) (he : ∀ j, j < 16 → e j ≤ 4)
    (hx2 : x2 = ∑ j ∈ Finset.range 16, e j * 2 ^ (4 * j)) :
    ((x2 + (x2 >>> 4)) &&& 0x0f0f0f0f0f0f0f0f) =
      ∑ t ∈ Finset.range 8, (e (2 * t) + e (2 * t + 1)) * 2 ^ (8 * t) := by
  have helt : ∀ j, j < 16 → e j < 2 ^ 4 := fun j hj => by have := he j hj; omega
  have hshift : x2 >>> 4 = ∑ j ∈ Finset.range 15, e (j + 1) * 2 ^ (4 * j) := by
    rw [hx2]
    exact sum_shift_field 4 15 e (helt 0 (by omega))
  have hext : x2 >>> 4 = ∑ j ∈ Finset.range 16, (if j < 15 then e (j + 1) else 0) * 2 ^ (4 * j) := by
    rw [hshift]
    conv_rhs => rw [Finset.sum_range_succ]
    have h15 : ∀ j ∈ Finset.range 15,
        (if j < 15 then e (j + 1) else 0) * 2 ^ (4 * j) = e (j + 1) * 2 ^ (4 * j) :=
      fun j hj => by rw [if_pos (Finset.mem_range.mp hj)]
    rw [Finset.sum_congr rfl h15, if_neg (by omega : ¬ (15:ℕ) < 15)]
    simp
  have hysum : x2 + x2 >>> 4 =
      ∑ j ∈ Finset.range 16, (e j + (if j < 15 then e (j + 1) else 0)) * 2 ^ (4 * j) := by
    rw [hext, hx2, ← Finset.sum_add_distrib]
    exact Finset.sum_congr rfl fun j _ => by ring
  have hglt : ∀ j, j < 16 → e j + (if j < 15 then e (j + 1) else 0) < 2 ^ 4 := by
    intro j hj
    have h1 := he j hj
    split_ifs with h2
    · have := he (j + 1) (by omega)
      omega
    · omega
  have hydig : ∀ j, j < 16 → dig 4 j (x2 + x2 >>> 4) = e j + (if j < 15 then e (j + 1) else 0) := by
    intro j hj
    rw [hysum]
    exact dig_sum 4 j 16 _ hglt hj
  have hm3 : (0x0f0f0f0f0f0f0f0f : ℕ) < 2 ^ (4 * 16) := by norm_num
  have hc : ∀ j, j < 16 → dig 4 j ((x2 + x2 >>> 4) &&& 0x0f0f0f0f0f0f0f0f)
      = (if j % 2 = 0 then e j + (if j < 15 then e (j + 1) else 0) else 0) := by
    intro j hj
    rw [dig4_and_mask3 _ j hj]
    rcases Nat.mod_two_eq_zero_or_one j with hpar | hpar
    · rw [if_pos hpar, if_pos hpar, hydig j hj]
    · rw [if_neg (by omega : ¬ j % 2 = 0), if_neg (by omega : ¬ j % 2 = 0)]
  have hclt : ((x2 + x2 >>> 4) &&& 0x0f0f0f0f0f0f0f0f) < 2 ^ (4 * 16) :=
    lt_of_le_of_lt Nat.and_le_right hm3
  have hcsum := eq_sum_of_digits 4 16 ((x2 + x2 >>> 4) &&& 0x0f0f0f0f0f0f0f0f)
    (fun j => if j % 2 = 0 then e j + (if j < 15 then e (j + 1) else 0) else 0) hclt hc
  rw [hcsum]
  have hp := sum_pair 4 8 (fun j => if j % 2 = 0 then e j + (if j < 15 then e (j + 1) else 0) else 0)
  simp only at hp
  have h16 : 2 * 8 = 16 := by norm_num
  rw [h16] at hp
  rw [hp]
  apply Finset.sum_congr rfl
  intro t ht
  have ht8 := Finset.mem_range.mp ht
  have he1 : (2 * t) % 2 = 0 := by omega
  have he2 : ¬ ((2 * t + 1) % 2 = 0) := by omega
  have he3 : 2 * t < 15 := by omega
  have he4 : 4 * (2 * t) = 8 * t := by ring
  rw [if_pos he1, if_neg he2, if_pos he3, he4]
  ring


/-- Final SWAR step: the wrapping multiply by `0x0101010101010101` accumulates
all byte counts into the top byte, which the shift by 56 extracts. -/
theorem swar4_eq (f : ℕ → ℕ) (hf : ∀ t, t < 8 → f t ≤ 8) :
    (((∑ t ∈ Finset.range 8, f t * 2 ^ (8 * t)) * 0x0101010101010101) % 2 ^ 64) >>> 56 =
      ∑ t ∈ Finset.range 8, f t := by
  have h0 := hf 0 (by omega)
  have h1 := hf 1 (by omega)
  have h2 := hf 2 (by omega)
  have h3 := hf 3 (by omega)
  have h4 := hf 4 (by omega)
  have h5 := hf 5 (by omega)
  have h6 := hf 6 (by omega)
  have h7 := hf 7 (by omega)
  simp only [Finset.sum_range_succ, Finset.sum_range_zero]
  rw [Nat.shiftRight_eq_div_pow]
  have hN : (0 + f 0 * 2 ^ (8 * 0) + f 1 * 2 ^ (8 * 1) + f 2 * 2 ^ (8 * 2) + f 3 * 2 ^ (8 * 3)
        + f 4 * 2 ^ (8 * 4) + f 5 * 2 ^ (8 * 5) + f 6 * 2 ^ (8 * 6) + f 7 * 2 ^ (8 * 7))
        * 0x0101010101010101 =
      (f 0
        + (f 0 + f 1) * 256
        + (f 0 + f 1 + f 2) * 256 ^ 2
        + (f 0 + f 1 + f 2 + f 3) * 256 ^ 3
        + (f 0 + f 1 + f 2 + f 3 + f 4) * 256 ^ 4
        + (f 0 + f 1 + f 2 + f 3 + f 4 + f 5) * 256 ^ 5
        + (f 0 + f 1 + f 2 + f 3 + f 4 + f 5 + f 6) * 256 ^ 6
        + (f 0 + f 1 + f 2 + f 3 + f 4 + f 5 + f 6 + f 7) * 256 ^ 7)
      + 2 ^ 64 *
        ((f 1 + f 2 + f 3 + f 4 + f 5 + f 6 + f 7)
          + (f 2 + f 3 + f 4 + f 5 + f 6 + f 7) * 256
          + (f 3 + f 4 + f 5 + f 6 + f 7) * 256 ^ 2
          + (f 4 + f 5 + f 6 + f 7) * 256 ^ 3
          + (f 5 + f 6 + f 7) * 256 ^ 4
          + (f 6 + f 7) * 256 ^ 5
          + f 7 * 256 ^ 6) := by
    norm_num
    ring
  rw [hN, Nat.add_mul_mod_self_left]
  have hAlt : (f 0
        + (f 0 + f 1) * 256
        + (f 0 + f 1 + f 2) * 256 ^ 2
        + (f 0 + f 1 + f 2 + f 3) * 256 ^ 3
        + (f 0 + f 1 + f 2 + f 3 + f 4) * 256 ^ 4
        + (f 0 + f 1 + f 2 + f 3 + f 4 + f 5) * 256 ^ 5
        + (f 0 + f 1 + f 2 + f 3 + f 4 + f 5 + f 6) * 256 ^ 6
        + (f 0 + f 1 + f 2 + f 3 + f 4 + f 5 + f 6 + f 7) * 256 ^ 7) < 2 ^ 64 := by
    norm_num
    omega
  rw [Nat.mod_eq_of_lt hAlt]
  clear hN hAlt
  norm_num
  omega

/-- The SWAR population count is correct: for every 64-bit word it returns
the number of set bits. -/
theorem popcount64_eq_bitsum (x : ℕ) (hx : x < U64) : popcount64 x = bitsum64 x := by
  have hx64 : x < 2 ^ 64 := hx
  have h1 := swar1_eq x hx64
  have h2 := swar2_eq _ (swarD x) (fun k _ => swarD_le x k) h1
  have h2E : (((x - ((x >>> 1) &&& 0x5555555555555555)) &&& 0x3333333333333333) +
      (((x - ((x >>> 1) &&& 0x5555555555555555)) >>> 2) &&& 0x3333333333333333)) =
      ∑ j ∈ Finset.range 16, swarE x j * 2 ^ (4 * j) := by
    rw [h2]
    exact Finset.sum_congr rfl fun j _ => by rw [swarE]
  have h3 := swar3_eq _ (swarE x) (fun j _ => swarE_le x j) h2E
  have h3F : ((((x - ((x >>> 1) &&& 0x5555555555555555)) &&& 0x3333333333333333) +
        (((x - ((x >>> 1) &&& 0x5555555555555555)) >>> 2) &&& 0x3333333333333333) +
        ((((x - ((x >>> 1) &&& 0x5555555555555555)) &&& 0x3333333333333333) +
          (((x - ((x >>> 1) &&& 0x5555555555555555)) >>> 2) &&& 0x3333333333333333)) >>> 4)) &&&
        0x0f0f0f0f0f0f0f0f) =
      ∑ t ∈ Finset.range 8, swarF x t * 2 ^ (8 * t) := by
    rw [h3]
    exact Finset.sum_congr rfl fun t _ => by rw [swarF]
  have h4 := swar4_eq (swarF x) (fun t _ => swarF_le x t)
  have hpc : popcount64 x = ((((((x - ((x >>> 1) &&& 0x5555555555555555)) &&& 0x3333333333333333) + (((x - ((x >>> 1) &&& 0x5555555555555555)) >>> 2) &&& 0x3333333333333333) + ((((x - ((x >>> 1) &&& 0x5555555555555555)) &&& 0x3333333333333333) + (((x - ((x >>> 1) &&& 0x5555555555555555)) >>> 2) &&& 0x3333333333333333)) >>> 4)) &&& 0x0f0f0f0f0f0f0f0f) * 0x0101010101010101) % U64) >>> 56 := rfl
  rw [hpc, h3F]
  unfold U64
  rw [h4]
  have hsF : (∑ t ∈ Finset.range 8, swarF x t) = ∑ j ∈ Finset.range 16, swarE x j := by
    have := sum_range_pair (swarE x) 8
    rw [show 2 * 8 = 16 from by norm_num] at this
    rw [this]
    exact Finset.sum_congr rfl fun t _ => by rw [swarF]
  have hsE : (∑ j ∈ Finset.range 16, swarE x j) = ∑ k ∈ Finset.range 32, swarD x k := by
    have := sum_range_pair (swarD x) 16
    rw [show 2 * 16 = 32 from by norm_num] at this
    rw [this]
    exact Finset.sum_congr rfl fun j _ => by rw [swarE]
  have hsD : (∑ k ∈ Finset.range 32, swarD x k) = bitsum64 x := by
    have hk : ∀ k, k < 32 → swarD x k =
        (if x.testBit (2 * k) then 1 else 0) + (if x.testBit (2 * k + 1) then 1 else 0) := by
      intro k _
      have hdig := dig_eq_bits_sum 2 k x
      rw [Finset.sum_range_succ, Finset.sum_range_succ, Finset.sum_range_zero] at hdig
      simp only [add_zero, zero_add, pow_zero, pow_one, mul_one] at hdig
      unfold swarD
      rw [hdig]
      rcases h0 : x.testBit (2 * k) <;> rcases h1 : x.testBit (2 * k + 1) <;> simp [h0, h1]
    rw [Finset.sum_congr rfl fun k hk2 => hk k (Finset.mem_range.mp hk2)]
    unfold bitsum64
    have := sum_range_pair (fun i => if x.testBit i then 1 else 0) 32
    rw [show 2 * 32 = 64 from by norm_num] at this
    rw [this]
  rw [hsF, hsE, hsD]

theorem popcount64_zero : popcount64 0 = 0 := by decide

/-- Monotonicity of the word population count under bitwise inclusion. -/
theorem popcount64_mono (a b : ℕ) (hab : a ||| b = b) (ha : a < U64) (hb : b < U64) :
    popcount64 a ≤ popcount64 b := by
  rw [popcount64_eq_bitsum a ha, popcount64_eq_bitsum b hb]
  unfold bitsum64
  apply Finset.sum_le_sum
  intro i _
  have hbit : b.testBit i = (a.testBit i || b.testBit i) := by
    conv_lhs => rw [← hab]
    exact Nat.testBit_or a b i
  rcases h : a.testBit i
  · simp
  · rw [h] at hbit
    simp at hbit
    simp [hbit]

/-! ### Bit-store order and invariants -/

/-- Bitwise inclusion of one word in another. -/
def subw (a b : ℕ) : Prop := a ||| b = b

/-- Index-wise inclusion of one bit store in another: same dimensions and
every word grows only by OR. -/
def storeLE (x y : List (List ℕ)) : Prop :=
  x.length = y.length ∧
    ∀ i, (x.getD i []).length = (y.getD i []).length ∧
      ∀ j, subw ((x.getD i []).getD j 0) ((y.getD i []).getD j 0)

/-- All words of the store are `uint64` values (out-of-range reads default to
0, which is in range). -/
def boundedStore (x : List (List ℕ)) : Prop := ∀ i j, (x.getD i []).getD j 0 < U64

/-- Index-wise shape: `count` lines of 8 words. -/
def shapeStore (count : ℕ) (x : List (List ℕ)) : Prop :=
  x.length = count ∧ ∀ i, i < count → (x.getD i []).length = 8

theorem subw_refl (a : ℕ) : subw a a := Nat.or_self a

theorem subw_trans (a b c : ℕ) (h1 : subw a b) (h2 : subw b c) : subw a c := by
  unfold subw at h1 h2 ⊢
  rw [← h2, ← Nat.or_assoc, h1]

theorem subw_or_left (a b : ℕ) : subw a (a ||| b) := by
  unfold subw
  rw [← Nat.or_assoc, Nat.or_self]

theorem subw_or_right (a b : ℕ) : subw b (a ||| b) := by
  unfold subw
  rw [Nat.or_comm a b, ← Nat.or_assoc, Nat.or_self]

theorem testBit_subw (a b : ℕ) (i : ℕ) (h : subw a b) (ha : a.testBit i = true) :
    b.testBit i = true := by
  rw [← h, Nat.testBit_or, ha, Bool.true_or]

theorem storeLE_refl (x : List (List ℕ)) : storeLE x x :=
  ⟨rfl, fun _ => ⟨rfl, fun _ => subw_refl _⟩⟩

theorem storeLE_trans (x y z : List (List ℕ)) (h1 : storeLE x y) (h2 : storeLE y z) :
    storeLE x z := by
  obtain ⟨hl1, h1⟩ := h1
  obtain ⟨hl2, h2⟩ := h2
  refine ⟨hl1.trans hl2, fun i => ⟨((h1 i).1).trans ((h2 i).1), fun j => ?_⟩⟩
  exact subw_trans _ _ _ ((h1 i).2 j) ((h2 i).2 j)

theorem bitGet_mono (x y : List (List ℕ)) (p : ℕ) (h : storeLE x y)
    (hx : bitGet x p = true) : bitGet y p = true := by
  unfold bitGet at hx ⊢
  exact testBit_subw _ _ _ ((h.2 (p / 512)).2 (p % 512 / 64)) hx

theorem getD_set {α : Type} (d : α) (l : List α) (i j : ℕ) (a : α) :
    (l.set i a).getD j d = if i = j ∧ i < l.length then a else l.getD j d := by
  by_cases hij : i = j
  · subst hij
    by_cases hl : i < l.length
    · simp [List.getD_eq_getElem?_getD, List.getElem?_set, hl]
    · have hle : l.length ≤ i := by omega
      simp [List.getD_eq_getElem?_getD, List.getElem?_eq_none,
        (by simpa using hle : (l.set i a).length ≤ i), hle, hl]
  · rw [List.getD_eq_getElem?_getD, List.getElem?_set_ne hij, ← List.getD_eq_getElem?_getD,
      if_neg (by tauto)]

theorem getD_zipWith {α β γ : Type} (f : α → β → γ) (dx : α) (dy : β) (dz : γ)
    (x : List α) (y : List β) (j : ℕ) (hjx : j < x.length) (hjy : j < y.length) :
    (List.zipWith f x y).getD j dz = f (x.getD j dx) (y.getD j dy) := by
  have hx := List.getElem?_eq_getElem hjx
  have hy := List.getElem?_eq_getElem hjy
  have hz : j < (List.zipWith f x y).length := by
    rw [List.length_zipWith]
    omega
  rw [List.getD_eq_getElem?_getD, List.getD_eq_getElem?_getD, List.getD_eq_getElem?_getD,
    hx, hy, List.getElem?_eq_getElem hz]
  simp [List.getElem_zipWith]

theorem setBit1_storeLE (lines : List (List ℕ)) (p : ℕ) : storeLE lines (setBit1 lines p) := by
  unfold setBit1
  refine ⟨by simp, fun i => ?_⟩
  rw [getD_set]
  by_cases hi : p / 512 = i ∧ p / 512 < lines.length
  · rw [if_pos hi, ← hi.1]
    refine ⟨by simp, fun j => ?_⟩
    rw [getD_set]
    by_cases hj : p % 512 / 64 = j ∧ p % 512 / 64 < (lines.getD (p / 512) []).length
    · rw [if_pos hj, ← hj.1]
      exact subw_or_left _ _
    · rw [if_neg hj]
      exact subw_refl _
  · rw [if_neg hi]
    exact ⟨rfl, fun j => subw_refl _⟩

theorem setBits_storeLE (count : ℕ) (ps : List ℕ) : ∀ lines : List (List ℕ),
    storeLE lines (setBitCacheOptimized count lines ps) := by
  induction ps with
  | nil => intro lines; exact storeLE_refl lines
  | cons p ps ih =>
    intro lines
    unfold setBitCacheOptimized at ih ⊢
    rw [List.foldl_cons]
    refine storeLE_trans _ _ _ ?_ (ih _)
    by_cases hp : p / 512 < count
    · rw [if_pos hp]; exact setBit1_storeLE lines p
    · rw [if_neg hp]; exact storeLE_refl lines

theorem setBit1_bitGet (lines : List (List ℕ)) (p : ℕ)
    (hline : p / 512 < lines.length) (hword : (lines.getD (p / 512) []).length = 8) :
    bitGet (setBit1 lines p) p = true := by
  unfold bitGet setBit1
  rw [getD_set, if_pos ⟨rfl, hline⟩, getD_set,
    if_pos ⟨rfl, by rw [hword]; omega⟩]
  rw [Nat.testBit_or, Nat.one_shiftLeft]
  have : ((2:ℕ) ^ (p % 64)).testBit (p % 64) = true := Nat.testBit_two_pow_self
  rw [this, Bool.or_true]

theorem setBit1_length (lines : List (List ℕ)) (p : ℕ) :
    (setBit1 lines p).length = lines.length := by
  unfold setBit1
  simp

theorem setBit1_shape (count : ℕ) (lines : List (List ℕ)) (p : ℕ)
    (h : shapeStore count lines) : shapeStore count (setBit1 lines p) := by
  obtain ⟨hlen, hinner⟩ := h
  refine ⟨by rw [setBit1_length, hlen], fun i hi => ?_⟩
  unfold setBit1
  rw [getD_set]
  by_cases hc : p / 512 = i ∧ p / 512 < lines.length
  · rw [if_pos hc, List.length_set]
    exact hinner (p / 512) (by omega)
  · rw [if_neg hc]
    exact hinner i hi

theorem setBits_shape (count cnt : ℕ) (ps : List ℕ) : ∀ lines : List (List ℕ),
    shapeStore cnt lines → shapeStore cnt (setBitCacheOptimized count lines ps) := by
  induction ps with
  | nil => intro lines h; exact h
  | cons p ps ih =>
    intro lines h
    unfold setBitCacheOptimized at ih ⊢
    rw [List.foldl_cons]
    apply ih
    by_cases hp : p / 512 < count
    · rw [if_pos hp]; exact setBit1_shape cnt lines p h
    · rw [if_neg hp]; exact h

theorem setBit1_bounded (lines : List (List ℕ)) (p : ℕ) (h : boundedStore lines) :
    boundedStore (setBit1 lines p) := by
  intro i j
  unfold setBit1
  rw [getD_set]
  by_cases hc : p / 512 = i ∧ p / 512 < lines.length
  · rw [if_pos hc]
    rw [getD_set]
    by_cases hd : p % 512 / 64 = j ∧ p % 512 / 64 < (lines.getD (p / 512) []).length
    · rw [if_pos hd]
      apply Nat.or_lt_two_pow (h (p / 512) (p % 512 / 64))
      rw [Nat.one_shiftLeft]
      exact Nat.pow_lt_pow_right (by omega) (by omega)
    · rw [if_neg hd]
      exact h (p / 512) j
  · rw [if_neg hc]
    exact h i j

theorem setBits_bounded (count : ℕ) (ps : List ℕ) : ∀ lines : List (List ℕ),
    boundedStore lines → boundedStore (setBitCacheOptimized count lines ps) := by
  induction ps with
  | nil => intro lines h; exact h
  | cons p ps ih =>
    intro lines h
    unfold setBitCacheOptimized at ih ⊢
    rw [List.foldl_cons]
    apply ih
    by_cases hp : p / 512 < count
    · rw [if_pos hp]; exact setBit1_bounded lines p h
    · rw [if_neg hp]; exact h

/-- Every position of the argument list whose line is in range is set after
`setBitCacheOptimized`. -/
theorem setBits_sets (count : ℕ) (ps : List ℕ) : ∀ lines : List (List ℕ),
    shapeStore count lines → ∀ p ∈ ps, p / 512 < count →
      bitGet (setBitCacheOptimized count lines ps) p = true := by
  induction ps with
  | nil => intro lines _ p hp; simp at hp
  | cons q qs ih =>
    intro lines hsh p hp hpc
    unfold setBitCacheOptimized
    rw [List.foldl_cons]
    rcases List.mem_cons.mp hp with rfl | hmem
    · rw [if_pos hpc]
      have hset : bitGet (setBit1 lines p) p = true := by
        apply setBit1_bitGet
        · rw [hsh.1]; exact hpc
        · exact hsh.2 (p / 512) hpc
      exact bitGet_mono _ _ p (setBits_storeLE count qs (setBit1 lines p)) hset
    · by_cases hq : q / 512 < count
      · rw [if_pos hq]
        exact ih (setBit1 lines q) (setBit1_shape count lines q hsh) p hmem hpc
      · rw [if_neg hq]
        exact ih lines hsh p hmem hpc

theorem subw_zero (b : ℕ) : subw 0 b := Nat.zero_or b

theorem getD_of_length_le {α : Type} (d : α) (l : List α) (i : ℕ) (h : l.length ≤ i) :
    l.getD i d = d := by
  rw [List.getD_eq_getElem?_getD, List.getElem?_eq_none h]
  rfl

theorem vecOr_storeLE_left (x y : List (List ℕ)) (hlen : x.length = y.length)
    (hinner : ∀ i, i < x.length → (x.getD i []).length = (y.getD i []).length) :
    storeLE x (vecOr x y) := by
  have hvlen : (vecOr x y).length = x.length := by
    unfold vecOr
    rw [List.length_zipWith]
    omega
  refine ⟨hvlen.symm, fun i => ?_⟩
  by_cases hi : i < x.length
  · have hgot : (vecOr x y).getD i [] =
        List.zipWith (· ||| ·) (x.getD i []) (y.getD i []) :=
      getD_zipWith _ [] [] [] x y i hi (by omega)
    rw [hgot]
    have hil := hinner i hi
    constructor
    · rw [List.length_zipWith]
      omega
    · intro j
      by_cases hj : j < (x.getD i []).length
      · rw [getD_zipWith _ 0 0 0 _ _ j hj (by omega)]
        exact subw_or_left _ _
      · rw [getD_of_length_le 0 _ j (by omega)]
        exact subw_zero _
  · rw [getD_of_length_le [] x i (by omega), getD_of_length_le [] (vecOr x y) i (by omega)]
    exact ⟨rfl, fun j => subw_refl _⟩

theorem vecOr_storeLE_right (x y : List (List ℕ)) (hlen : x.length = y.length)
    (hinner : ∀ i, i < x.length → (x.getD i []).length = (y.getD i []).length) :
    storeLE y (vecOr x y) := by
  have hvlen : (vecOr x y).length = x.length := by
    unfold vecOr
    rw [List.length_zipWith]
    omega
  refine ⟨by omega, fun i => ?_⟩
  by_cases hi : i < x.length
  · have hgot : (vecOr x y).getD i [] =
        List.zipWith (· ||| ·) (x.getD i []) (y.getD i []) :=
      getD_zipWith _ [] [] [] x y i hi (by omega)
    rw [hgot]
    have hil := hinner i hi
    constructor
    · rw [List.length_zipWith]
      omega
    · intro j
      by_cases hj : j < (x.getD i []).length
      · rw [getD_zipWith _ 0 0 0 _ _ j hj (by omega)]
        exact subw_or_right _ _
      · rw [getD_of_length_le 0 _ j (by omega),
          getD_of_length_le 0 _ j (by rw [List.length_zipWith]; omega)]
        exact subw_refl _
  · rw [getD_of_length_le [] y i (by omega), getD_of_length_le [] (vecOr x y) i (by omega)]
    exact ⟨rfl, fun j => subw_refl _⟩

theorem zero_lt_U64 : (0:ℕ) < U64 := by
  unfold U64
  exact Nat.pos_pow_of_pos 64 (by omega)

theorem vecOr_shape (count : ℕ) (x y : List (List ℕ)) (hx : shapeStore count x)
    (hy : shapeStore count y) : shapeStore count (vecOr x y) := by
  obtain ⟨hx1, hx2⟩ := hx
  obtain ⟨hy1, hy2⟩ := hy
  constructor
  · unfold vecOr
    rw [List.length_zipWith]
    omega
  · intro i hi
    have hgot : (vecOr x y).getD i [] =
        List.zipWith (· ||| ·) (x.getD i []) (y.getD i []) :=
      getD_zipWith _ [] [] [] x y i (by omega) (by omega)
    rw [hgot, List.length_zipWith, hx2 i hi, hy2 i hi]
    simp

theorem vecOr_bounded (x y : List (List ℕ)) (hx : boundedStore x) (hy : boundedStore y) :
    boundedStore (vecOr x y) := by
  intro i j
  by_cases hi1 : i < x.length
  · by_cases hi2 : i < y.length
    · have hgot : (vecOr x y).getD i [] =
          List.zipWith (· ||| ·) (x.getD i []) (y.getD i []) :=
        getD_zipWith _ [] [] [] x y i hi1 hi2
      rw [hgot]
      by_cases hj1 : j < (x.getD i []).length
      · by_cases hj2 : j < (y.getD i []).length
        · rw [getD_zipWith _ 0 0 0 _ _ j hj1 hj2]
          exact Nat.or_lt_two_pow (hx i j) (hy i j)
        · rw [getD_of_length_le 0 _ j (by rw [List.length_zipWith]; omega)]
          exact zero_lt_U64
      · rw [getD_of_length_le 0 _ j (by rw [List.length_zipWith]; omega)]
        exact zero_lt_U64
    · rw [getD_of_length_le [] (vecOr x y) i (by unfold vecOr; rw [List.length_zipWith]; omega)]
      exact zero_lt_U64
  · rw [getD_of_length_le [] (vecOr x y) i (by unfold vecOr; rw [List.length_zipWith]; omega)]
    exact zero_lt_U64

theorem lineSum_mono : ∀ (a b : List ℕ), a.length = b.length →
    (∀ j, subw (a.getD j 0) (b.getD j 0)) →
    (∀ j, a.getD j 0 < U64) → (∀ j, b.getD j 0 < U64) →
    (a.map popcount64).sum ≤ (b.map popcount64).sum := by
  intro a
  induction a with
  | nil =>
    intro b hlen _ _ _
    have : b = [] := List.eq_nil_of_length_eq_zero hlen.symm
    subst this
    exact le_refl _
  | cons a0 as ih =>
    intro b hlen hsub ha hb
    rcases b with _ | ⟨b0, bs⟩
    · simp at hlen
    · simp only [List.map_cons, List.sum_cons]
      have hhead : popcount64 a0 ≤ popcount64 b0 := by
        have h0 := hsub 0
        have ha0 := ha 0
        have hb0 := hb 0
        simp only [List.getD_cons_zero] at h0 ha0 hb0
        exact popcount64_mono a0 b0 h0 ha0 hb0
      have htail := ih bs (by simpa using hlen) (fun j => by simpa using hsub (j + 1))
        (fun j => by simpa using ha (j + 1)) (fun j => by simpa using hb (j + 1))
      omega

theorem storeSum_mono : ∀ (x y : List (List ℕ)), storeLE x y →
    boundedStore x → boundedStore y →
    (x.flatten.map popcount64).sum ≤ (y.flatten.map popcount64).sum := by
  intro x
  induction x with
  | nil =>
    intro y hle _ _
    have : y = [] := List.eq_nil_of_length_eq_zero hle.1.symm
    subst this
    exact le_refl _
  | cons x0 xs ih =>
    intro y hle hbx hby
    rcases y with _ | ⟨y0, ys⟩
    · have := hle.1; simp at this
    · simp only [List.flatten_cons, List.map_append, List.sum_append]
      have hhead : (x0.map popcount64).sum ≤ (y0.map popcount64).sum := by
        have h0 := hle.2 0
        simp only [List.getD_cons_zero] at h0
        exact lineSum_mono x0 y0 h0.1 h0.2
          (fun j => by have := hbx 0 j; simpa using this)
          (fun j => by have := hby 0 j; simpa using this)
      have htail : (xs.flatten.map popcount64).sum ≤ (ys.flatten.map popcount64).sum := by
        apply ih ys
        · refine ⟨by have := hle.1; simpa using this, fun i => ?_⟩
          have := hle.2 (i + 1)
          simpa using this
        · intro i j; have := hbx (i + 1) j; simpa using this
        · intro i j; have := hby (i + 1) j; simpa using this
      omega

/-! ### Position generator characterization -/

theorem posLoop_closed (h1 h2 bc hc : ℕ) : ∀ (fuel i : ℕ), hc ≤ i + fuel →
    posLoop h1 h2 bc hc i fuel =
      (List.range (hc - i)).map (fun j => ((h1 + (i + j) * h2) % U64) % bc) := by
  intro fuel
  induction fuel with
  | zero =>
    intro i h
    have : hc - i = 0 := by omega
    rw [this]
    simp [posLoop]
  | succ fuel ih =>
    intro i h
    rw [posLoop]
    by_cases hi : i < hc
    · rw [if_pos hi]
      have hm : hc - i = (hc - (i + 1)) + 1 := by omega
      rw [hm, List.range_succ_eq_map, List.map_cons, List.map_map, ih (i + 1) (by omega)]
      congr 1
      apply List.map_congr_left
      intro a _
      simp only [Function.comp_apply, Nat.succ_eq_add_one]
      have hx : i + 1 + a = i + (a + 1) := by omega
      rw [hx]
    · rw [if_neg hi]
      have : hc - i = 0 := by omega
      rw [this]
      simp

theorem genPositions_closed (h1 h2 bc hc : ℕ) :
    genPositions h1 h2 bc hc = (List.range hc).map (fun j => ((h1 + j * h2) % U64) % bc) := by
  unfold genPositions
  rw [posLoop_closed h1 h2 bc hc hc 0 (by omega)]
  simp

theorem genPositions_length (h1 h2 bc hc : ℕ) : (genPositions h1 h2 bc hc).length = hc := by
  rw [genPositions_closed]
  simp

theorem genPositions_getD (h1 h2 bc hc j : ℕ) (hj : j < hc) :
    (genPositions h1 h2 bc hc).getD j 0 = ((h1 + j * h2) % U64) % bc := by
  rw [genPositions_closed, List.getD_eq_getElem?_getD, List.getElem?_map, List.getElem?_range hj]
  rfl

theorem genPositions_mem_lt (h1 h2 bc hc : ℕ) (hbc : 0 < bc) :
    ∀ p ∈ genPositions h1 h2 bc hc, p < bc := by
  intro p hp
  rw [genPositions_closed] at hp
  obtain ⟨j, _, rfl⟩ := List.mem_map.mp hp
  exact Nat.mod_lt _ hbc

/-! ### Properties of the operations -/

theorem getHash_some_of (bf : Filter) (data : List ℕ)
    (h : ¬ (0 < bf.hashCount ∧ bf.bitCount = 0)) :
    getHashPositionsOptimized bf data =
      some { bf with
        positions :=
          genPositions (hashOptimized1 data) (hashOptimized2 data) bf.bitCount bf.hashCount,
        cacheLineIndices :=
          ((genPositions (hashOptimized1 data) (hashOptimized2 data) bf.bitCount
            bf.hashCount).map (· / 512)).dedup } := by
  unfold getHashPositionsOptimized
  rw [if_neg h]

theorem getHash_elim (bf : Filter) (data : List ℕ) (bf1 : Filter)
    (h : getHashPositionsOptimized bf data = some bf1) :
    bf1.cacheLines = bf.cacheLines ∧ bf1.bitCount = bf.bitCount ∧
      bf1.hashCount = bf.hashCount ∧ bf1.cacheLineCount = bf.cacheLineCount ∧
      bf1.positions =
        genPositions (hashOptimized1 data) (hashOptimized2 data) bf.bitCount bf.hashCount := by
  unfold getHashPositionsOptimized at h
  by_cases hc : 0 < bf.hashCount ∧ bf.bitCount = 0
  · rw [if_pos hc] at h
    exact Option.noConfusion h
  · rw [if_neg hc] at h
    have := Option.some.inj h
    rw [← this]
    exact ⟨rfl, rfl, rfl, rfl, rfl⟩

theorem addGo_elim (bf : Filter) (data : List ℕ) (bf3 : Filter)
    (h : addGo bf data = some bf3) :
    bf3.bitCount = bf.bitCount ∧ bf3.hashCount = bf.hashCount ∧
      bf3.cacheLineCount = bf.cacheLineCount ∧
      bf3.cacheLines = setBitCacheOptimized bf.cacheLineCount bf.cacheLines
        (genPositions (hashOptimized1 data) (hashOptimized2 data) bf.bitCount bf.hashCount) := by
  unfold addGo at h
  rcases hg : getHashPositionsOptimized bf data with _ | bf1
  · rw [hg] at h
    exact Option.noConfusion h
  · rw [hg] at h
    simp only [Option.map_some'] at h
    obtain ⟨hl, hb, hh, hc, hp⟩ := getHash_elim bf data bf1 hg
    rw [← Option.some.inj h]
    exact ⟨hb, hh, hc, by rw [hp, hl, hc]⟩

theorem containsSt_elim (bf : Filter) (data : List ℕ) (bf1 : Filter) (ans : Bool)
    (h : containsSt bf data = some (bf1, ans)) :
    bf1.cacheLines = bf.cacheLines ∧ bf1.bitCount = bf.bitCount ∧
      bf1.hashCount = bf.hashCount ∧ bf1.cacheLineCount = bf.cacheLineCount ∧
      bf1.positions =
        genPositions (hashOptimized1 data) (hashOptimized2 data) bf.bitCount bf.hashCount ∧
      ans = getBitCacheOptimized bf.cacheLineCount bf.cacheLines
        (genPositions (hashOptimized1 data) (hashOptimized2 data) bf.bitCount bf.hashCount) := by
  unfold containsSt at h
  rcases hg : getHashPositionsOptimized bf data with _ | bf2
  · rw [hg] at h
    exact Option.noConfusion h
  · rw [hg] at h
    simp only [Option.map_some'] at h
    obtain ⟨hl, hb, hh, hc, hp⟩ := getHash_elim bf data bf2 hg
    have h1 : bf2 = bf1 := congrArg Prod.fst (Option.some.inj h)
    have h2 : ans = getBitCacheOptimized bf2.cacheLineCount bf2.cacheLines bf2.positions :=
      (congrArg Prod.snd (Option.some.inj h)).symm
    rw [← h1]
    refine ⟨hl, hb, hh, hc, hp, ?_⟩
    rw [h2, hp, hl, hc]

theorem unionGo_mismatch (a b : Filter) (h : a.cacheLineCount ≠ b.cacheLineCount) :
    unionGo a b = Except.error "bloom filters must have same size for union" := by
  unfold unionGo
  rw [if_pos h]

theorem intersectionGo_mismatch (a b : Filter) (h : a.cacheLineCount ≠ b.cacheLineCount) :
    intersectionGo a b = Except.error "bloom filters must have same size for intersection" := by
  unfold intersectionGo
  rw [if_pos h]

theorem unionGo_ok_elim (a b a2 b2 : Filter) (h : unionGo a b = Except.ok (a2, b2)) :
    a.cacheLineCount = b.cacheLineCount ∧ b2 = b ∧
      a2.bitCount = a.bitCount ∧ a2.hashCount = a.hashCount ∧
      a2.cacheLineCount = a.cacheLineCount ∧ a2.positions = a.positions ∧
      a2.cacheLineIndices = a.cacheLineIndices ∧
      (a.cacheLineCount = 0 → a2 = a) ∧
      (a.cacheLineCount ≠ 0 → a2.cacheLines = vecOr a.cacheLines b.cacheLines) := by
  unfold unionGo at h
  by_cases hcnt : a.cacheLineCount ≠ b.cacheLineCount
  · rw [if_pos hcnt] at h
    exact Except.noConfusion h
  · rw [if_neg hcnt] at h
    by_cases h0 : a.cacheLineCount = 0
    · rw [if_pos h0] at h
      have h1 := Except.ok.inj h
      have ha := congrArg Prod.fst h1
      have hb := congrArg Prod.snd h1
      simp only at ha hb
      rw [← ha, ← hb]
      exact ⟨by omega, rfl, rfl, rfl, rfl, rfl, rfl, fun _ => rfl, fun hn => absurd h0 hn⟩
    · rw [if_neg h0] at h
      have h1 := Except.ok.inj h
      have ha := congrArg Prod.fst h1
      have hb := congrArg Prod.snd h1
      simp only at ha hb
      rw [← ha, ← hb]
      exact ⟨by omega, rfl, rfl, rfl, rfl, rfl, rfl, fun hz => absurd hz h0, fun _ => rfl⟩

theorem intersectionGo_ok_elim (a b a2 b2 : Filter)
    (h : intersectionGo a b = Except.ok (a2, b2)) :
    a.cacheLineCount = b.cacheLineCount ∧ b2 = b ∧
      a2.bitCount = a.bitCount ∧ a2.hashCount = a.hashCount ∧
      a2.cacheLineCount = a.cacheLineCount := by
  unfold intersectionGo at h
  by_cases hcnt : a.cacheLineCount ≠ b.cacheLineCount
  · rw [if_pos hcnt] at h
    exact Except.noConfusion h
  · rw [if_neg hcnt] at h
    by_cases h0 : a.cacheLineCount = 0
    · rw [if_pos h0] at h
      have h1 := Except.ok.inj h
      have ha := congrArg Prod.fst h1
      have hb := congrArg Prod.snd h1
      simp only at ha hb
      rw [← ha, ← hb]
      exact ⟨by omega, rfl, rfl, rfl, rfl⟩
    · rw [if_neg h0] at h
      have h1 := Except.ok.inj h
      have ha := congrArg Prod.fst h1
      have hb := congrArg Prod.snd h1
      simp only at ha hb
      rw [← ha, ← hb]
      exact ⟨by omega, rfl, rfl, rfl, rfl⟩

/-! ### Reachability by bit-setting operations -/

theorem getBit_true_iff (count : ℕ) (lines : List (List ℕ)) (ps : List ℕ) :
    getBitCacheOptimized count lines ps = true ↔
      ∀ p ∈ ps, p / 512 < count ∧ bitGet lines p = true := by
  unfold getBitCacheOptimized
  rw [List.all_eq_true]
  constructor
  · intro h p hp
    have := h p hp
    simp only [Bool.and_eq_true, decide_eq_true_eq] at this
    exact this
  · intro h p hp
    simp only [Bool.and_eq_true, decide_eq_true_eq]
    exact h p hp

theorem shapeStore_of_wfShape (bf : Filter) (h : wfShape bf) :
    shapeStore bf.cacheLineCount bf.cacheLines := by
  obtain ⟨h1, h2⟩ := h
  refine ⟨h1, fun i hi => ?_⟩
  have hlen : i < bf.cacheLines.length := by omega
  rw [List.getD_eq_getElem?_getD, List.getElem?_eq_getElem hlen]
  exact h2 _ (List.getElem_mem hlen)

theorem boundedStore_of_wfWords (bf : Filter) (h : wfWords bf) :
    boundedStore bf.cacheLines := by
  intro i j
  by_cases hi : i < bf.cacheLines.length
  · have hline : bf.cacheLines.getD i [] ∈ bf.cacheLines := by
      rw [List.getD_eq_getElem?_getD, List.getElem?_eq_getElem hi]
      exact List.getElem_mem hi
    by_cases hj : j < (bf.cacheLines.getD i []).length
    · have hword : (bf.cacheLines.getD i []).getD j 0 ∈ bf.cacheLines.getD i [] := by
        rw [List.getD_eq_getElem?_getD (bf.cacheLines.getD i []), List.getElem?_eq_getElem hj]
        exact List.getElem_mem hj
      exact h _ hline _ hword
    · rw [getD_of_length_le 0 _ j (by omega)]
      exact zero_lt_U64
  · rw [getD_of_length_le [] _ i (by omega)]
    exact zero_lt_U64

/-- Internal, index-formulated invariant implied by `wf`. -/
def Inv (bf : Filter) : Prop :=
  shapeStore bf.cacheLineCount bf.cacheLines ∧ boundedStore bf.cacheLines ∧
    bf.bitCount = bf.cacheLineCount * 512 ∧ 1 ≤ bf.hashCount

theorem wf_imp_Inv (bf : Filter) (h : wf bf) : Inv bf :=
  ⟨shapeStore_of_wfShape bf h.1, boundedStore_of_wfWords bf h.2.1, h.2.2.1, h.2.2.2⟩

/-- Reachability: `bf2` results from `bf1` by any sequence of `Add` calls and
successful `Union` calls (with structurally well-formed other filters), with
no `Clear` or `Intersection` in between. -/
inductive grows : Filter → Filter → Prop
  | refl (bf : Filter) : grows bf bf
  | add (bf1 bf2 bf3 : Filter) (x : List ℕ) (h : grows bf1 bf2)
      (ha : addGo bf2 x = some bf3) : grows bf1 bf3
  | union (bf1 bf2 bf3 other other2 : Filter) (h : grows bf1 bf2)
      (hsh : wfShape other) (hw : wfWords other)
      (hu : unionGo bf2 other = Except.ok (bf3, other2)) : grows bf1 bf3

/-- Along `grows` the configuration is unchanged, the invariant is preserved,
and the bit store only gains bits. -/
theorem grows_inv (bf bf4 : Filter) (hg : grows bf bf4) (hI : Inv bf) :
    Inv bf4 ∧ bf4.bitCount = bf.bitCount ∧ bf4.hashCount = bf.hashCount ∧
      bf4.cacheLineCount = bf.cacheLineCount ∧ storeLE bf.cacheLines bf4.cacheLines := by
  induction hg with
  | refl => exact ⟨hI, rfl, rfl, rfl, storeLE_refl _⟩
  | add bfa bfb x h ha ih =>
    obtain ⟨⟨hsh, hbd, hbc, hhc⟩, ihb, ihh, ihc, ihle⟩ := ih
    obtain ⟨hb3, hh3, hc3, hl3⟩ := addGo_elim bfa x bfb ha
    refine ⟨⟨?_, ?_, by omega, by omega⟩, by omega, by omega, by omega, ?_⟩
    · rw [hl3, hc3]
      exact setBits_shape bfa.cacheLineCount bfa.cacheLineCount _ bfa.cacheLines hsh
    · rw [hl3]
      exact setBits_bounded _ _ _ hbd
    · rw [hl3]
      exact storeLE_trans _ _ _ ihle (setBits_storeLE _ _ _)
  | union bfa bfb other other2 h hsh hw hu ih =>
    obtain ⟨⟨hshA, hbdA, hbcA, hhcA⟩, ihb, ihh, ihc, ihle⟩ := ih
    obtain ⟨hcnt, hb2, hb3, hh3, hc3, _, _, hzero, hnonzero⟩ := unionGo_ok_elim bfa other bfb other2 hu
    by_cases h0 : bfa.cacheLineCount = 0
    · have hba : bfb = bfa := hzero h0
      rw [hba]
      exact ⟨⟨hshA, hbdA, hbcA, hhcA⟩, by omega, by omega, by omega, ihle⟩
    · have hlv := hnonzero h0
      have hshO : shapeStore other.cacheLineCount other.cacheLines := shapeStore_of_wfShape other hsh
      have hbdO : boundedStore other.cacheLines := boundedStore_of_wfWords other hw
      have hlenEq : bfa.cacheLines.length = other.cacheLines.length := by
        rw [hshA.1, hshO.1]
        omega
      have hinner : ∀ i, i < bfa.cacheLines.length →
          (bfa.cacheLines.getD i []).length = (other.cacheLines.getD i []).length := by
        intro i hi
        have hlA := hshA.1
        have hlO := hshO.1
        rw [hshA.2 i (by omega), hshO.2 i (by omega)]
      refine ⟨⟨?_, ?_, by omega, by omega⟩, by omega, by omega, by omega, ?_⟩
      · rw [hlv, hc3]
        apply vecOr_shape _ _ _ hshA
        have : other.cacheLineCount = bfa.cacheLineCount := by omega
        rw [← this]
        exact hshO
      · rw [hlv]
        exact vecOr_bounded _ _ hbdA hbdO
      · rw [hlv]
        exact storeLE_trans _ _ _ ihle (vecOr_storeLE_left _ _ hlenEq hinner)

/-- Core of the no-false-negatives property: an element added to a
well-formed filter is still reported present after any further growth. -/
theorem add_grows_contains (bf bf3 bf4 : Filter) (x : List ℕ) (hI : Inv bf)
    (ha : addGo bf x = some bf3) (hg : grows bf3 bf4) : containsB bf4 x = some true := by
  have hg0 : grows bf bf3 := grows.add bf bf bf3 x (grows.refl bf) ha
  obtain ⟨hI3, hb3, hh3, hc3, hle3⟩ := grows_inv bf bf3 hg0 hI
  obtain ⟨hI4, hb4, hh4, hc4, hle4⟩ := grows_inv bf3 bf4 hg hI3
  have hcond : ¬ (0 < bf.hashCount ∧ bf.bitCount = 0) := by
    intro hcontra
    unfold addGo getHashPositionsOptimized at ha
    rw [if_pos hcontra] at ha
    exact Option.noConfusion ha
  have hhc : 1 ≤ bf.hashCount := hI.2.2.2
  have hbc0 : 0 < bf.bitCount := by
    by_cases hz : bf.bitCount = 0
    · exact absurd ⟨by omega, hz⟩ hcond
    · omega
  have hbcmul : bf.bitCount = bf.cacheLineCount * 512 := hI.2.2.1
  have hps_lt : ∀ p ∈ genPositions (hashOptimized1 x) (hashOptimized2 x) bf.bitCount bf.hashCount,
      p < bf.bitCount :=
    genPositions_mem_lt _ _ _ _ hbc0
  have hpdiv : ∀ p ∈ genPositions (hashOptimized1 x) (hashOptimized2 x) bf.bitCount bf.hashCount,
      p / 512 < bf.cacheLineCount := by
    intro p hp
    have := hps_lt p hp
    exact (Nat.div_lt_iff_lt_mul (by omega)).mpr (by omega)
  have hset3 : ∀ p ∈ genPositions (hashOptimized1 x) (hashOptimized2 x) bf.bitCount bf.hashCount,
      bitGet bf3.cacheLines p = true := by
    intro p hp
    obtain ⟨_, _, _, hl3⟩ := addGo_elim bf x bf3 ha
    rw [hl3]
    exact setBits_sets bf.cacheLineCount _ bf.cacheLines hI.1 p hp (hpdiv p hp)
  have hset4 : ∀ p ∈ genPositions (hashOptimized1 x) (hashOptimized2 x) bf.bitCount bf.hashCount,
      bitGet bf4.cacheLines p = true :=
    fun p hp => bitGet_mono _ _ p hle4 (hset3 p hp)
  have hcond4 : ¬ (0 < bf4.hashCount ∧ bf4.bitCount = 0) := by
    intro hcontra
    omega
  unfold containsB containsSt
  rw [getHash_some_of bf4 x hcond4]
  simp only [Option.map_some']
  have hgen4 : genPositions (hashOptimized1 x) (hashOptimized2 x) bf4.bitCount bf4.hashCount =
      genPositions (hashOptimized1 x) (hashOptimized2 x) bf.bitCount bf.hashCount := by
    rw [hb4, hb3, hh4, hh3]
  show some (getBitCacheOptimized bf4.cacheLineCount bf4.cacheLines
    (genPositions (hashOptimized1 x) (hashOptimized2 x) bf4.bitCount bf4.hashCount)) = some true
  rw [hgen4]
  congr 1
  rw [getBit_true_iff]
  intro p hp
  exact ⟨by have := hpdiv p hp; omega, hset4 p hp⟩

theorem containsB_compute (bf : Filter) (data : List ℕ)
    (hcond : ¬ (0 < bf.hashCount ∧ bf.bitCount = 0)) :
    containsB bf data = some (getBitCacheOptimized bf.cacheLineCount bf.cacheLines
      (genPositions (hashOptimized1 data) (hashOptimized2 data) bf.bitCount bf.hashCount)) := by
  unfold containsB containsSt
  rw [getHash_some_of bf data hcond]
  rfl

theorem containsB_elim (bf : Filter) (data : List ℕ) (b : Bool)
    (h : containsB bf data = some b) :
    b = getBitCacheOptimized bf.cacheLineCount bf.cacheLines
      (genPositions (hashOptimized1 data) (hashOptimized2 data) bf.bitCount bf.hashCount) ∧
    ¬ (0 < bf.hashCount ∧ bf.bitCount = 0) := by
  have hcond : ¬ (0 < bf.hashCount ∧ bf.bitCount = 0) := by
    intro hcontra
    unfold containsB containsSt getHashPositionsOptimized at h
    rw [if_pos hcontra] at h
    exact Option.noConfusion h
  have h2 := containsB_compute bf data hcond
  rw [h2] at h
  exact ⟨(Option.some.inj h).symm, hcond⟩

/-! ### Concrete filters used by the witnesses and counterexamples -/

/-- The filter produced by `NewCacheOptimizedBloomFilter(1, 0.5)`:
the float value `-1·ln(0.5)/ln2² = 1/ln2 ≈ 1.4427` truncates to 1 bit, rounded
up to one 512-bit cache line, with a single hash function.  (The exact
rational fed to `newFilterGo` below, 1, truncates identically.) -/
def bf11 : Filter :=
  { cacheLines := [[0, 0, 0, 0, 0, 0, 0, 0]], bitCount := 512, hashCount := 1,
    cacheLineCount := 1, positions := [0], cacheLineIndices := [0] }

theorem computeSizing_11 : computeSizing 1 1 =
    { bitCountIdeal := 1, hashCount := 1, cacheLineCount := 1, bitCount := 512 } := by
  unfold computeSizing goTrunc ln2Rat
  norm_num

theorem bf11_constructed : newFilterGo 1 1 = some bf11 := by
  unfold newFilterGo
  rw [computeSizing_11]
  decide

/-- `bf11` after `Add([0])`. -/
def bf11add : Filter := (addGo bf11 [0]).getD bf11

/-- A one-line filter with two hash functions, as produced by
`NewCacheOptimizedBloomFilter(50, 0.2)`: ideal bits ≈ 167.47, one cache line,
`hashCount = trunc(167·ln2/50) = 2`. -/
def bfA2 : Filter :=
  { cacheLines := [[0, 0, 0, 0, 0, 0, 0, 0]], bitCount := 512, hashCount := 2,
    cacheLineCount := 1, positions := [0, 0], cacheLineIndices := [0, 0] }

theorem computeSizing_A2 : computeSizing (16747 / 100) 50 =
    { bitCountIdeal := 167, hashCount := 2, cacheLineCount := 1, bitCount := 512 } := by
  unfold computeSizing goTrunc ln2Rat
  norm_num
  refine ⟨by decide, ?_, by decide⟩
  rw [show ((Int.toNat 167 : ℕ) : ℚ) = (167 : ℚ) from by rw [show Int.toNat 167 = 167 from rfl]; norm_num]
  norm_num
  decide

theorem bfA2_constructed : newFilterGo (16747 / 100) 50 = some bfA2 := by
  unfold newFilterGo
  rw [computeSizing_A2]
  decide

/-- The first component of `Union(bfA2, bf11add)`. -/
def bfA2u : Filter := ((unionGo bfA2 bf11add).toOption.map Prod.fst).getD bfA2

/-- A two-cache-line filter (reachable e.g. from
`NewCacheOptimizedBloomFilter` with an ideal bit count between 513 and 1024). -/
def bfTwo : Filter :=
  { cacheLines := [[0, 0, 0, 0, 0, 0, 0, 0], [0, 0, 0, 0, 0, 0, 0, 0]],
    bitCount := 1024, hashCount := 1, cacheLineCount := 2,
    positions := [0], cacheLineIndices := [0] }

/-- The updated-filter component of `Contains(bf11, [0])`. -/
def bf11c : Filter := ((containsSt bf11 [0]).map Prod.fst).getD bf11

/-! ### The claims -/

/-- C1: no false negatives — for every byte sequence `x`, immediately after
`Add(x)` on a well-formed Filter, `Contains(x)` returns true, and it remains
true after any further sequence of `Add` calls and successful `Union` calls on
that Filter (the `grows` relation), with no `Clear` or `Intersection` in
between. -/
theorem claim_C1_no_false_negatives (bf : Filter) (x : List ℕ) (hwf : wf bf)
    (hbytes : ∀ b ∈ x, b < 256) (bf3 bf4 : Filter)
    (hadd : addGo bf x = some bf3) (hg : grows bf3 bf4) :
    containsB bf4 x = some true :=
  add_grows_contains bf bf3 bf4 x (wf_imp_Inv bf hwf) hadd hg

theorem claim_C1_witness :
    (wf bf11 ∧ (∀ b ∈ [0], b < 256) ∧ addGo bf11 [0] = some bf11add) ∧
      containsB bf11add [0] = some true :=
  ⟨⟨by decide, by decide, by decide⟩,
    claim_C1_no_false_negatives bf11 [0] (by decide) (by decide) bf11add bf11add
      (by decide) (grows.refl bf11add)⟩

/-- C2: size-mismatch rejection with atomicity — for Filters with different
`cacheLineCount`, `Union` and `Intersection` both return the error, and since
the embedding returns no successor state on the error path (mirroring the Go
code, where the check precedes every write), both filters are untouched. -/
theorem claim_C2_size_mismatch (a b : Filter) (h : a.cacheLineCount ≠ b.cacheLineCount) :
    unionGo a b = Except.error "bloom filters must have same size for union" ∧
      intersectionGo a b = Except.error "bloom filters must have same size for intersection" :=
  ⟨unionGo_mismatch a b h, intersectionGo_mismatch a b h⟩

theorem claim_C2_witness :
    bf11.cacheLineCount ≠ bfTwo.cacheLineCount ∧
      unionGo bf11 bfTwo = Except.error "bloom filters must have same size for union" ∧
      intersectionGo bf11 bfTwo =
        Except.error "bloom filters must have same size for intersection" :=
  ⟨by decide, (claim_C2_size_mismatch bf11 bfTwo (by decide)).1,
    (claim_C2_size_mismatch bf11 bfTwo (by decide)).2⟩

/-- C3 counterexample: the claim asserts that after constructing with
`expectedElements = 1` and a false-positive rate close to 1 (here 0.99, whose
ideal bit count -1·ln(0.99)/ln2² ≈ 0.0209066 truncates to 0), `Add` and
`Contains` are still well-defined.  In fact the constructor itself aborts:
with `cacheLineCount = 0` the alignment check indexes the empty backing slice
(`&cacheLines[0]`, bloomfilter.go:63) and panics, so no Filter is produced at
all — refuting the claim at this input. -/
theorem claim_C3_counterexample : newFilterGo (209066 / 10000000) 1 = none := by
  have hs : computeSizing (209066 / 10000000) 1 =
      { bitCountIdeal := 0, hashCount := 1, cacheLineCount := 0, bitCount := 0 } := by
    unfold computeSizing goTrunc ln2Rat
    norm_num
  unfold newFilterGo
  rw [hs]
  rfl

/-- C3 (amended): construction aborts exactly when the truncated ideal bit
count is 0; on every successful construction the filter has at least one
cache line (`bitCount ≥ 512`, `hashCount ≥ 1`) and then no subsequent
operation can fail: `Add` and `Contains` are defined for every byte input
(`Clear`, `PopCount` and the statistics are total functions of the state by
their embedded types). -/
theorem computeSizing_hashCount_pos (q : ℚ) (ee : ℕ) :
    1 ≤ (computeSizing q ee).hashCount := by
  have hdef : (computeSizing q ee).hashCount =
      if goTrunc ((goTrunc q : ℚ) * ln2Rat / (ee : ℚ)) < 1 then 1
      else goTrunc ((goTrunc q : ℚ) * ln2Rat / (ee : ℚ)) := rfl
  rw [hdef]
  split
  · omega
  · omega

theorem claim_C3_total_after_construction (q : ℚ) (ee : ℕ) (bf : Filter)
    (h : newFilterGo q ee = some bf) :
    512 ≤ bf.bitCount ∧ 1 ≤ bf.hashCount ∧
      ∀ x : List ℕ, (addGo bf x).isSome ∧ (containsSt bf x).isSome := by
  unfold newFilterGo at h
  by_cases h0 : (computeSizing q ee).cacheLineCount = 0
  · rw [if_pos h0] at h
    exact Option.noConfusion h
  · rw [if_neg h0] at h
    have hbf := Option.some.inj h
    have hbc : bf.bitCount = (computeSizing q ee).cacheLineCount * 512 := by
      rw [← hbf]
      unfold computeSizing
      rfl
    have hhc : 1 ≤ bf.hashCount := by
      rw [← hbf]
      show 1 ≤ (computeSizing q ee).hashCount
      exact computeSizing_hashCount_pos q ee
    have hbc512 : 512 ≤ bf.bitCount := by
      rw [hbc]
      omega
    refine ⟨hbc512, hhc, fun x => ?_⟩
    have hcond : ¬ (0 < bf.hashCount ∧ bf.bitCount = 0) := by
      intro hcontra
      omega
    constructor
    · unfold addGo
      rw [getHash_some_of bf x hcond]
      rfl
    · unfold containsSt
      rw [getHash_some_of bf x hcond]
      rfl

theorem claim_C3_witness :
    (newFilterGo 1 1 = some bf11) ∧ 512 ≤ bf11.bitCount ∧ (addGo bf11 [7]).isSome :=
  ⟨bf11_constructed, (claim_C3_total_after_construction 1 1 bf11 bf11_constructed).1,
    ((claim_C3_total_after_construction 1 1 bf11 bf11_constructed).2.2 [7]).1⟩

/-- Exact rational value (to the shown digits) of the float computation
`-1000·ln(0.01)/ln2² ≈ 9585.058377`, the ideal bit count for
`NewCacheOptimizedBloomFilter(1000, 0.01)`.  Any faithful float64 evaluation
lands within 10⁻⁶ of the true real value, which is more than 0.05 away from
the nearest integer, so truncation/ceiling/rounding below are unaffected by
the approximation. -/
def r1000 : ℚ := 9585058377 / 1000000

/-- C4 counterexample: at `expectedElements = 1000`, `falsePositiveRate =
0.01` the code truncates the ideal bit count to 9585 where the spec's formula
says `ceil` = 9586, and truncates the hash count to 6 where the spec's
`round` formula says 7 — refuting both halves of the claim at this input. -/
theorem claim_C4_counterexample :
    (computeSizing r1000 1000).bitCountIdeal ≠ specIdealBitCount r1000 ∧
      (computeSizing r1000 1000).hashCount ≠ specHashCount (specIdealBitCount r1000) 1000 := by
  have h1 : (computeSizing r1000 1000).bitCountIdeal = 9585 := by
    show goTrunc r1000 = 9585
    unfold goTrunc r1000
    norm_num
    decide
  have h2 : specIdealBitCount r1000 = 9586 := by
    unfold specIdealBitCount r1000
    rw [show (9586:ℕ) = (9586:ℤ).toNat from rfl]
    congr 1
    rw [Int.ceil_eq_iff]
    constructor
    · norm_num
    · norm_num
  have h3 : (computeSizing r1000 1000).hashCount = 6 := by
    show (if goTrunc ((goTrunc r1000 : ℚ) * ln2Rat / ((1000 : ℕ) : ℚ)) < 1 then 1
      else goTrunc ((goTrunc r1000 : ℚ) * ln2Rat / ((1000 : ℕ) : ℚ))) = 6
    have hg : goTrunc r1000 = 9585 := by
      unfold goTrunc r1000
      norm_num
      decide
    rw [hg]
    have hcast : ((9585 : ℕ) : ℚ) = (9585 : ℚ) := by norm_num
    rw [hcast]
    have hcast2 : (((1000 : ℕ) : ℚ)) = (1000 : ℚ) := by norm_num
    rw [hcast2]
    unfold goTrunc ln2Rat
    norm_num
    decide
  have h4 : specHashCount 9586 1000 = 7 := by
    unfold specHashCount ln2Rat
    rw [round_eq]
    have hcast : (((9586 : ℕ) : ℚ)) = (9586 : ℚ) := by norm_num
    have hcast2 : (((1000 : ℕ) : ℚ)) = (1000 : ℚ) := by norm_num
    rw [hcast, hcast2]
    norm_num
    decide
  rw [h1, h2, h3, h4]
  omega

/-- C4 (amended): `create` truncates (floors, for the nonnegative values that
arise) the ideal bit count rather than taking the ceiling, and truncates
rather than rounds the hash count, clamping it at 1; the truncated values
never exceed the spec's ceiling/rounded values, and the two ideal bit counts
differ by at most 1. -/
theorem claim_C4_sizing_truncates (q : ℚ) (ee : ℕ) (hq : 0 ≤ q) (hee : 1 ≤ ee) :
    (computeSizing q ee).bitCountIdeal = (⌊q⌋).toNat ∧
      (computeSizing q ee).bitCountIdeal ≤ specIdealBitCount q ∧
      specIdealBitCount q ≤ (computeSizing q ee).bitCountIdeal + 1 ∧
      1 ≤ (computeSizing q ee).hashCount ∧
      (computeSizing q ee).hashCount ≤ specHashCount (specIdealBitCount q) ee := by
  have h1 : (computeSizing q ee).bitCountIdeal = goTrunc q := rfl
  have hnum : goTrunc q ≤ specIdealBitCount q := by
    unfold goTrunc specIdealBitCount
    exact Int.toNat_le_toNat (Int.floor_le_ceil q)
  refine ⟨h1, by rw [h1]; exact hnum, ?_, computeSizing_hashCount_pos q ee, ?_⟩
  · rw [h1]
    unfold goTrunc specIdealBitCount
    have hf : (0:ℤ) ≤ ⌊q⌋ := Int.floor_nonneg.mpr hq
    have hc := Int.ceil_le_floor_add_one q
    omega
  · have h2 : (computeSizing q ee).hashCount =
        if goTrunc ((goTrunc q : ℚ) * ln2Rat / (ee : ℚ)) < 1 then 1
        else goTrunc ((goTrunc q : ℚ) * ln2Rat / (ee : ℚ)) := rfl
    rw [h2]
    unfold specHashCount
    have hle : ((goTrunc q : ℕ) : ℚ) * ln2Rat / (ee : ℚ) ≤
        ((specIdealBitCount q : ℕ) : ℚ) * ln2Rat / (ee : ℚ) := by
      have hcast : ((goTrunc q : ℕ) : ℚ) ≤ ((specIdealBitCount q : ℕ) : ℚ) := by
        exact_mod_cast hnum
      have hl2 : (0:ℚ) ≤ ln2Rat := by unfold ln2Rat; norm_num
      have hee2 : (0:ℚ) < (ee : ℚ) := by exact_mod_cast hee
      gcongr
    have hfr : goTrunc ((goTrunc q : ℚ) * ln2Rat / (ee : ℚ)) ≤
        (round (((specIdealBitCount q : ℕ) : ℚ) * ln2Rat / (ee : ℚ))).toNat := by
      unfold goTrunc
      apply Int.toNat_le_toNat
      calc ⌊((goTrunc q : ℕ) : ℚ) * ln2Rat / (ee : ℚ)⌋
          ≤ ⌊((specIdealBitCount q : ℕ) : ℚ) * ln2Rat / (ee : ℚ)⌋ := Int.floor_mono hle
        _ ≤ round (((specIdealBitCount q : ℕ) : ℚ) * ln2Rat / (ee : ℚ)) := by
            rw [round_eq]
            exact Int.floor_mono (by linarith)
    split
    · exact le_max_left _ _
    · exact le_trans hfr (le_max_right _ _)

theorem claim_C4_witness :
    ((0:ℚ) ≤ 3 / 2 ∧ (1:ℕ) ≤ 1) ∧
      (computeSizing (3 / 2) 1).bitCountIdeal = (⌊(3 / 2 : ℚ)⌋).toNat ∧
      1 ≤ (computeSizing (3 / 2) 1).hashCount :=
  ⟨⟨by norm_num, le_refl 1⟩,
    (claim_C4_sizing_truncates (3 / 2) 1 (by norm_num) (le_refl 1)).1,
    (claim_C4_sizing_truncates (3 / 2) 1 (by norm_num) (le_refl 1)).2.2.2.1⟩

/-- C5: structural invariants — every constructed Filter satisfies
`bitCount = cacheLineCount × 512` (hence a multiple of 512) and
`hashCount ≥ 1`, and every operation (`Add`, `Contains`, `Clear`, `Union`,
`Intersection`; `PopCount` and the statistics are read-only functions)
preserves the configuration triple `(bitCount, hashCount, cacheLineCount)`. -/
theorem claim_C5_structural_invariants :
    (∀ (q : ℚ) (ee : ℕ) (bf : Filter), newFilterGo q ee = some bf →
        bf.bitCount = bf.cacheLineCount * 512 ∧ 1 ≤ bf.hashCount) ∧
      (∀ (bf : Filter) (x : List ℕ) (bf2 : Filter), addGo bf x = some bf2 →
        config bf2 = config bf) ∧
      (∀ (bf : Filter) (x : List ℕ) (bf2 : Filter) (b : Bool),
        containsSt bf x = some (bf2, b) → config bf2 = config bf) ∧
      (∀ bf : Filter, config (clearGo bf) = config bf) ∧
      (∀ a b a2 b2 : Filter, unionGo a b = Except.ok (a2, b2) →
        config a2 = config a ∧ config b2 = config b) ∧
      (∀ a b a2 b2 : Filter, intersectionGo a b = Except.ok (a2, b2) →
        config a2 = config a ∧ config b2 = config b) := by
  refine ⟨?_, ?_, ?_, ?_, ?_, ?_⟩
  · intro q ee bf h
    unfold newFilterGo at h
    by_cases h0 : (computeSizing q ee).cacheLineCount = 0
    · rw [if_pos h0] at h
      exact Option.noConfusion h
    · rw [if_neg h0] at h
      have hbf := Option.some.inj h
      constructor
      · rw [← hbf]
        show (computeSizing q ee).bitCount = (computeSizing q ee).cacheLineCount * 512
        rfl
      · rw [← hbf]
        show 1 ≤ (computeSizing q ee).hashCount
        exact computeSizing_hashCount_pos q ee
  · intro bf x bf2 h
    obtain ⟨hb, hh, hc, _⟩ := addGo_elim bf x bf2 h
    unfold config
    rw [hb, hh, hc]
  · intro bf x bf2 b h
    obtain ⟨_, hb, hh, hc, _, _⟩ := containsSt_elim bf x bf2 b h
    unfold config
    rw [hb, hh, hc]
  · intro bf
    unfold config clearGo
    split
    · rfl
    · rfl
  · intro a b a2 b2 h
    obtain ⟨_, hb2, hcb, hch, hcc, _, _, _, _⟩ := unionGo_ok_elim a b a2 b2 h
    constructor
    · unfold config
      rw [hcb, hch, hcc]
    · rw [hb2]
  · intro a b a2 b2 h
    obtain ⟨_, hb2, hcb, hch, hcc⟩ := intersectionGo_ok_elim a b a2 b2 h
    constructor
    · unfold config
      rw [hcb, hch, hcc]
    · rw [hb2]

theorem claim_C5_witness :
    (bf11.bitCount = bf11.cacheLineCount * 512 ∧ 1 ≤ bf11.hashCount) ∧
      config bf11add = config bf11 ∧ config (clearGo bf11add) = config bf11add :=
  ⟨claim_C5_structural_invariants.1 1 1 bf11 bf11_constructed,
    claim_C5_structural_invariants.2.1 bf11 [0] bf11add (by decide),
    claim_C5_structural_invariants.2.2.2.1 bf11add⟩

theorem clearGo_word (bf : Filter) (h0 : bf.cacheLineCount ≠ 0) (i j : ℕ) :
    ((clearGo bf).cacheLines.getD i []).getD j 0 = 0 := by
  unfold clearGo
  rw [if_neg h0]
  show (((bf.cacheLines.map fun l => l.map fun _ => 0)).getD i []).getD j 0 = 0
  by_cases hi : i < bf.cacheLines.length
  · have houter : (List.map (fun l => List.map (fun _ => 0) l) bf.cacheLines).getD i [] =
        List.map (fun _ => 0) bf.cacheLines[i] := by
      rw [List.getD_eq_getElem?_getD, List.getElem?_map, List.getElem?_eq_getElem hi]
      rfl
    rw [houter]
    by_cases hj : j < (bf.cacheLines[i]).length
    · rw [List.getD_eq_getElem?_getD, List.getElem?_map, List.getElem?_eq_getElem hj]
      rfl
    · rw [getD_of_length_le 0 _ j (by rw [List.length_map]; omega)]
  · rw [getD_of_length_le [] _ i (by rw [List.length_map]; omega)]
    rfl

theorem clearGo_config (bf : Filter) :
    (clearGo bf).bitCount = bf.bitCount ∧ (clearGo bf).hashCount = bf.hashCount ∧
      (clearGo bf).cacheLineCount = bf.cacheLineCount := by
  unfold clearGo
  split
  · exact ⟨rfl, rfl, rfl⟩
  · exact ⟨rfl, rfl, rfl⟩

/-- C6: Clear postcondition — for every Filter (with the construction
invariants `hashCount ≥ 1` and a nonzero bit count, which hold for every
constructed filter and are preserved by every operation), immediately after
`Clear()` the population count is 0 and `Contains(x)` returns false for every
byte sequence `x`, in particular for every previously inserted element. -/
theorem claim_C6_clear_postcondition (bf : Filter) (hhc : 1 ≤ bf.hashCount)
    (hbc : 0 < bf.bitCount) :
    popCountGo (clearGo bf) = 0 ∧ ∀ x : List ℕ, containsB (clearGo bf) x = some false := by
  obtain ⟨hcb, hch, hcc⟩ := clearGo_config bf
  constructor
  · unfold popCountGo
    by_cases h0 : bf.cacheLineCount = 0
    · rw [if_pos (by omega : (clearGo bf).cacheLineCount = 0)]
    · rw [if_neg (by omega : ¬ (clearGo bf).cacheLineCount = 0)]
      apply List.sum_eq_zero
      intro y hy
      obtain ⟨w, hw, rfl⟩ := List.mem_map.mp hy
      obtain ⟨l, hl, hwl⟩ := List.mem_flatten.mp hw
      have hlines : (clearGo bf).cacheLines = bf.cacheLines.map fun l => l.map fun _ => 0 := by
        unfold clearGo
        rw [if_neg h0]
      rw [hlines] at hl
      obtain ⟨l0, _, rfl⟩ := List.mem_map.mp hl
      obtain ⟨_, _, rfl⟩ := List.mem_map.mp hwl
      exact popcount64_zero
  · intro x
    have hcond : ¬ (0 < (clearGo bf).hashCount ∧ (clearGo bf).bitCount = 0) := by
      intro hcontra
      omega
    rw [containsB_compute _ x hcond]
    congr 1
    have hlen : (genPositions (hashOptimized1 x) (hashOptimized2 x)
        (clearGo bf).bitCount (clearGo bf).hashCount).length = (clearGo bf).hashCount :=
      genPositions_length _ _ _ _
    rcases hps : genPositions (hashOptimized1 x) (hashOptimized2 x)
        (clearGo bf).bitCount (clearGo bf).hashCount with _ | ⟨p, rest⟩
    · rw [hps] at hlen
      simp at hlen
      omega
    · unfold getBitCacheOptimized
      rw [List.all_cons]
      by_cases h0 : bf.cacheLineCount = 0
      · have hguard : decide (p / 512 < (clearGo bf).cacheLineCount) = false := by
          simp only [decide_eq_false_iff_not]
          omega
        rw [hguard, Bool.false_and, Bool.false_and]
      · have hword : bitGet (clearGo bf).cacheLines p = false := by
          unfold bitGet
          rw [clearGo_word bf h0]
          exact Nat.zero_testBit _
        rw [hword, Bool.and_false, Bool.false_and]

theorem claim_C6_witness :
    (1 ≤ bf11add.hashCount ∧ 0 < bf11add.bitCount) ∧
      popCountGo (clearGo bf11add) = 0 ∧ containsB (clearGo bf11add) [0] = some false :=
  ⟨⟨by decide, by decide⟩, (claim_C6_clear_postcondition bf11add (by decide) (by decide)).1,
    (claim_C6_clear_postcondition bf11add (by decide) (by decide)).2 [0]⟩

/-- C7: position generation — on a Filter with a nonzero bit count the
generator succeeds and yields exactly `hashCount` positions with
`position_i = (h1 + i·h2) mod 2⁶⁴ mod bitCount` (64-bit wraparound in sum and
product), and any Filter with the same configuration (same `bitCount` and
`hashCount`) yields the identical ordered sequence for the same input —
determinism across repeated calls. -/
theorem claim_C7_position_generation (bf bfb : Filter) (x : List ℕ)
    (hbc : 0 < bf.bitCount)
    (hcfgb : bfb.bitCount = bf.bitCount ∧ bfb.hashCount = bf.hashCount) :
    ∃ bf1, getHashPositionsOptimized bf x = some bf1 ∧
      bf1.positions.length = bf.hashCount ∧
      (∀ i, i < bf.hashCount → bf1.positions.getD i 0 =
        ((hashOptimized1 x + i * hashOptimized2 x) % U64) % bf.bitCount) ∧
      (getHashPositionsOptimized bfb x).map Filter.positions = some bf1.positions := by
  have hcond : ¬ (0 < bf.hashCount ∧ bf.bitCount = 0) := by
    intro hcontra
    omega
  have hcondb : ¬ (0 < bfb.hashCount ∧ bfb.bitCount = 0) := by
    intro hcontra
    obtain ⟨hc1, hc2⟩ := hcfgb
    omega
  refine ⟨_, getHash_some_of bf x hcond, ?_, ?_, ?_⟩
  · exact genPositions_length _ _ _ _
  · intro i hi
    exact genPositions_getD _ _ _ _ i hi
  · rw [getHash_some_of bfb x hcondb]
    simp only [Option.map_some']
    show some (genPositions (hashOptimized1 x) (hashOptimized2 x) bfb.bitCount bfb.hashCount) =
      some (genPositions (hashOptimized1 x) (hashOptimized2 x) bf.bitCount bf.hashCount)
    rw [hcfgb.1, hcfgb.2]

theorem claim_C7_witness :
    0 < bf11.bitCount ∧
      (∃ bf1, getHashPositionsOptimized bf11 [0] = some bf1 ∧
        bf1.positions.length = bf11.hashCount ∧
        (∀ i, i < bf11.hashCount → bf1.positions.getD i 0 =
          ((hashOptimized1 [0] + i * hashOptimized2 [0]) % U64) % bf11.bitCount) ∧
        (getHashPositionsOptimized bf11 [0]).map Filter.positions = some bf1.positions) :=
  ⟨by decide, claim_C7_position_generation bf11 bf11 [0] (by decide) ⟨rfl, rfl⟩⟩

/-- C8 counterexample: `Contains` is not state-free — on the freshly
constructed one-line filter `bf11` (whose `positions` scratch is `[0]`), the
call `Contains([0])` overwrites the scratch with the derived position
`[479]`, so the "leaves every field unchanged" claim fails at this concrete
input. -/
theorem claim_C8_counterexample :
    (containsSt bf11 [0]).map (fun r => r.1.positions) ≠ some bf11.positions := by decide

/-- C8 (amended): `Contains` leaves the bit store and the configuration
fields unchanged (hence also `PopCount` and the statistics, which the
embedding renders as pure functions of the state, mirroring the read-only Go
code), but it does overwrite the scratch `positions` and `cacheLineIndices`
buffers — which is also why concurrent `Contains` calls on one Filter are not
state-free. -/
theorem claim_C8_readonly_frame (bf : Filter) (x : List ℕ) (bf1 : Filter) (b : Bool)
    (h : containsSt bf x = some (bf1, b)) :
    bf1.cacheLines = bf.cacheLines ∧ bf1.bitCount = bf.bitCount ∧
      bf1.hashCount = bf.hashCount ∧ bf1.cacheLineCount = bf.cacheLineCount ∧
      popCountGo bf1 = popCountGo bf ∧ statsGo bf1 = statsGo bf := by
  obtain ⟨hl, hb, hh, hc, _, _⟩ := containsSt_elim bf x bf1 b h
  have hpop : popCountGo bf1 = popCountGo bf := by
    unfold popCountGo
    rw [hl, hc]
  refine ⟨hl, hb, hh, hc, hpop, ?_⟩
  unfold statsGo
  rw [hb, hh, hc, hpop]

theorem claim_C8_witness :
    containsSt bf11 [0] = some (bf11c, false) ∧ bf11c.cacheLines = bf11.cacheLines ∧
      statsGo bf11c = statsGo bf11 :=
  ⟨by decide, (claim_C8_readonly_frame bf11 [0] bf11c false (by decide)).1,
    (claim_C8_readonly_frame bf11 [0] bf11c false (by decide)).2.2.2.2.2⟩

/-- C9 counterexample: the claim quantifies over any two Filters with equal
`cacheLineCount`, but two such filters can have different `hashCount` (their
constructions target different element counts).  With `bfA2` (one line, two
hash functions, empty) and `bf11add` (one line, one hash function, holding
element `[0]`): `Contains([0])` is true on `bf11add`, `Union(bfA2, bf11add)`
succeeds, yet `Contains([0])` on the union result is false — the union
checks two positions of `[0]` but only one was ever set. -/
theorem claim_C9_counterexample :
    containsB bf11add [0] = some true ∧
      (unionGo bfA2 bf11add).toOption = some (bfA2u, bf11add) ∧
      containsB bfA2u [0] = some false := by decide

/-- C9 (amended): the union superset property holds for Filters of the same
configuration — equal `cacheLineCount` and additionally equal `bitCount` and
`hashCount` (which is how same-parameter filters are built): after a
successful `Union(A, B)`, every element contained in A before the union or
contained in B is contained in the result. -/
theorem claim_C9_union_superset (a b a2 b2 : Filter) (e : List ℕ)
    (hshA : wfShape a) (hshB : wfShape b)
    (hbcA : a.bitCount = a.cacheLineCount * 512)
    (hbc : b.bitCount = a.bitCount) (hhc : b.hashCount = a.hashCount)
    (hu : unionGo a b = Except.ok (a2, b2))
    (he : containsB a e = some true ∨ containsB b e = some true) :
    containsB a2 e = some true := by
  obtain ⟨hcnt, hb2, hcb, hch, hcc, _, _, hzero, hnonzero⟩ := unionGo_ok_elim a b a2 b2 hu
  have main : (¬ (0 < a.hashCount ∧ a.bitCount = 0)) ∧
      ∀ p ∈ genPositions (hashOptimized1 e) (hashOptimized2 e) a.bitCount a.hashCount,
        p / 512 < a.cacheLineCount ∧
          (bitGet a.cacheLines p = true ∨ bitGet b.cacheLines p = true) := by
    rcases he with heA | heB
    · obtain ⟨hval, hcond⟩ := containsB_elim a e true heA
      have hget := (getBit_true_iff _ _ _).mp hval.symm
      exact ⟨hcond, fun p hp => ⟨(hget p hp).1, Or.inl (hget p hp).2⟩⟩
    · obtain ⟨hval, hcond⟩ := containsB_elim b e true heB
      have hpsB : genPositions (hashOptimized1 e) (hashOptimized2 e) b.bitCount b.hashCount =
          genPositions (hashOptimized1 e) (hashOptimized2 e) a.bitCount a.hashCount := by
        rw [hbc, hhc]
      rw [hpsB] at hval
      have hget := (getBit_true_iff _ _ _).mp hval.symm
      refine ⟨?_, fun p hp => ⟨by have := (hget p hp).1; omega, Or.inr (hget p hp).2⟩⟩
      intro hx
      exact hcond ⟨by omega, by omega⟩
  obtain ⟨hcondA, hkey⟩ := main
  have hconda2 : ¬ (0 < a2.hashCount ∧ a2.bitCount = 0) := by
    intro hx
    exact hcondA ⟨by omega, by omega⟩
  rw [containsB_compute a2 e hconda2]
  have hps2 : genPositions (hashOptimized1 e) (hashOptimized2 e) a2.bitCount a2.hashCount =
      genPositions (hashOptimized1 e) (hashOptimized2 e) a.bitCount a.hashCount := by
    rw [hcb, hch]
  rw [hps2]
  congr 1
  by_cases h0 : a.cacheLineCount = 0
  · have hhc0 : a.hashCount = 0 := by
      by_contra hne
      exact hcondA ⟨by omega, by omega⟩
    have hlen : (genPositions (hashOptimized1 e) (hashOptimized2 e)
        a.bitCount a.hashCount).length = a.hashCount := genPositions_length _ _ _ _
    have hnil : genPositions (hashOptimized1 e) (hashOptimized2 e) a.bitCount a.hashCount = [] :=
      List.eq_nil_of_length_eq_zero (by omega)
    rw [hzero h0, hnil]
    rfl
  · rw [hnonzero h0, getBit_true_iff]
    intro p hp
    have hk := hkey p hp
    refine ⟨by omega, ?_⟩
    have hlenEq : a.cacheLines.length = b.cacheLines.length := by
      rw [hshA.1, hshB.1]
      omega
    have hinner : ∀ i, i < a.cacheLines.length →
        (a.cacheLines.getD i []).length = (b.cacheLines.getD i []).length := by
      intro i hi
      have hsA := shapeStore_of_wfShape a hshA
      have hsB := shapeStore_of_wfShape b hshB
      have hA1 := hsA.1
      have hB1 := hsB.1
      rw [hsA.2 i (by omega), hsB.2 i (by omega)]
    rcases hk.2 with hbit | hbit
    · exact bitGet_mono _ _ p (vecOr_storeLE_left _ _ hlenEq hinner) hbit
    · exact bitGet_mono _ _ p (vecOr_storeLE_right _ _ hlenEq hinner) hbit

/-- The first component of `Union(bf11, bf11add)` (same configuration). -/
def bf11u : Filter := ((unionGo bf11 bf11add).toOption.map Prod.fst).getD bf11

theorem claim_C9_witness :
    (wfShape bf11 ∧ wfShape bf11add ∧ unionGo bf11 bf11add = Except.ok (bf11u, bf11add) ∧
        containsB bf11add [0] = some true) ∧
      containsB bf11u [0] = some true :=
  ⟨⟨by decide, by decide, by decide, by decide⟩,
    claim_C9_union_superset bf11 bf11add bf11u bf11add [0] (by decide) (by decide)
      (by decide) (by decide) (by decide) (by decide) (Or.inr (by decide))⟩

/-- C10: bit-set monotonicity — `Add` and successful `Union` only ever set
bits: along any such sequence (the `grows` relation) every bit that was 1
stays 1, and consequently `PopCount` is non-decreasing. -/
theorem claim_C10_bit_monotonicity (bf bf2 : Filter) (hwf : wf bf) (hg : grows bf bf2) :
    (∀ p, bitGet bf.cacheLines p = true → bitGet bf2.cacheLines p = true) ∧
      popCountGo bf ≤ popCountGo bf2 := by
  have hI := wf_imp_Inv bf hwf
  obtain ⟨hI2, hb, hh, hc, hle⟩ := grows_inv bf bf2 hg hI
  refine ⟨fun p hp => bitGet_mono _ _ p hle hp, ?_⟩
  unfold popCountGo
  by_cases h0 : bf.cacheLineCount = 0
  · rw [if_pos h0, if_pos (by omega)]
  · rw [if_neg h0, if_neg (by omega)]
    exact storeSum_mono _ _ hle hI.2.1 hI2.2.1

theorem claim_C10_witness :
    (wf bf11 ∧ addGo bf11 [0] = some bf11add) ∧ popCountGo bf11 ≤ popCountGo bf11add :=
  ⟨⟨by decide, by decide⟩,
    (claim_C10_bit_monotonicity bf11 bf11add (by decide)
      (grows.add bf11 bf11 bf11add [0] (grows.refl bf11) (by decide))).2⟩

end BloomFilterGo
